import Mathlib

/-!
Verification of the dynamic property-dispatch engine (the jscript `DispatchEx`
object model) contained in the second source unit of
`src/dlls/gdi32/dibdrv/graphics.c`.

Shallow embedding conventions:
* `WCHAR *` strings are lists of code units (`List Nat`); a valid C string
  contains no interior NUL (`0`).
* The property table (`This->props` / `This->prop_cnt`) is a `List DProp`;
  `buf_size` is tracked separately.
* The prototype chain is passed explicitly: an operation on `This` receives
  the list `protos` where `protos.head?` is `This->prototype`,
  `protos.tail.head?` is the prototype's prototype, and so on.  A `[]` chain
  models `This->prototype == NULL`.
* Heap-allocation outcomes (`heap_realloc`, `heap_strdupW`) are injected as a
  list of booleans (`AllocH`): each allocation pops one entry, an empty list
  means the allocation succeeds.
* External collaborators are abstract: a builtin descriptor's `invoke`
  capability is not modelled (delegating to it yields the `Hres.delegated`
  result), and the `on_put` notification hook has no modelled effect.
* Undefined behaviour (dereferencing a NULL or out-of-range pointer, reading
  an inactive union member) is modelled by returning `none` from the
  operation.
-/

namespace Dispex

/-- A `WCHAR` string as the list of its code units (terminating NUL omitted). -/
abbrev Wstr := List Nat

/-- A valid C wide string has no interior NUL code unit. -/
def noNul (s : Wstr) : Prop := 0 ∉ s

instance (s : Wstr) : Decidable (noNul s) := by unfold noNul; infer_instance

/-- Wine's `strcmpW`: compare code units until they differ or a terminator is
reached; the result is the difference of the first differing units (the
engine only uses its sign). -/
def cmpW : Wstr → Wstr → Int
  | [], [] => 0
  | [], b :: _ => -(b : Int)
  | a :: _, [] => (a : Int)
  | a :: as, b :: bs =>
    if a = b then (if a = 0 then 0 else cmpW as bs) else (a : Int) - (b : Int)

/-- `prop_type_t` from the source. -/
inductive PropType where
  | variant   -- PROP_VARIANT
  | builtin   -- PROP_BUILTIN
  | protref   -- PROP_PROTREF
  | deleted   -- PROP_DELETED
deriving DecidableEq, Repr, Fintype

/-- A `VARIANT` payload, restricted to the shapes the engine manipulates:
`VT_EMPTY`, `VT_DISPATCH` (the object pointer is an opaque token), and other
tagged payloads which the engine treats as opaque data. -/
inductive Variant where
  | empty
  | dispatch (tok : Nat)
  | num (n : Int)
  | wstr (s : Wstr)
deriving DecidableEq, Repr

/-- A `builtin_prop_t` class descriptor: name, flags.  The `invoke` capability
is an external collaborator and is not modelled.  (The class `value_prop`
descriptor has a NULL name in the source; no modelled operation ever reads the
name of a descriptor stored in slot 0, so descriptor names are plain `Wstr`.) -/
structure BProp where
  name : Wstr
  flags : Nat
deriving DecidableEq, Repr

/-- The payload union `u` of a slot.  `undef` models memory `alloc_prop` left
uninitialised. -/
inductive PropU where
  | var (v : Variant)
  | builtin (b : BProp)
  | ref (r : Nat)
  | undef
deriving DecidableEq, Repr

/-- `dispex_prop_t`: one slot of a property table.  `name` is `none` for a
NULL name pointer. -/
structure DProp where
  name : Option Wstr
  type : PropType
  flags : Nat
  u : PropU
deriving DecidableEq, Repr

/-- The per-object state of a `DispatchEx`: the slot array (`props` /
`prop_cnt`), the capacity bookkeeping (`buf_size`), and the immutable parts of
`builtin_info` the table operations consult.  The prototype pointer is
represented by the explicit chain argument of each operation, and the
reference count lives in the separate lifecycle model below. -/
structure JsObj where
  props : List DProp
  bufSize : Nat
  builtinProps : List BProp   -- builtin_info->props, sorted by name
  hasValueProp : Bool          -- builtin_info->value_prop.invoke != NULL
  hasDestructor : Bool         -- builtin_info->destructor != NULL
  hasOnPut : Bool              -- builtin_info->on_put != NULL
deriving DecidableEq, Repr

/-- Flag bits, from `jscript.h` (declarations only; the header is not under
`src/`): `PROPF_METHOD = 0x0100`, `PROPF_ENUM = 0x0200`. -/
def PROPF_METHOD : Nat := 0x0100

/-- The `Enumerable` flag bit. -/
def PROPF_ENUM : Nat := 0x0200

/-- `DISPID_STARTENUM` sentinel (Windows SDK value). -/
def DISPID_STARTENUM : Int := -1

/-- `DISPID_PROPERTYPUT` named-argument slot (Windows SDK value). -/
def DISPID_PROPERTYPUT : Int := -3

/-- The `HRESULT` values the engine produces, as a closed enumeration.
`delegated` stands for the unknown result of delegating to a builtin
descriptor's `invoke` capability. -/
inductive Hres where
  | ok               -- S_OK
  | sfalse           -- S_FALSE
  | fail             -- E_FAIL
  | oom              -- E_OUTOFMEMORY
  | memberNotFound   -- DISP_E_MEMBERNOTFOUND
  | unknownName      -- DISP_E_UNKNOWNNAME
  | paramMissing     -- DISP_E_PARAMNOTOPTIONAL
  | notimpl          -- E_NOTIMPL
  | invalidArg       -- E_INVALIDARG
  | delegated         -- result of an unmodelled builtin invoke
deriving DecidableEq, Repr

/-- The `FAILED()` macro on the modelled results (`delegated` is only produced
on paths that return it to the caller unconditionally). -/
def Hres.failed : Hres → Bool
  | .ok | .sfalse | .delegated => false
  | _ => true

/-- Injected heap-allocation outcomes: each allocation pops one entry; an
exhausted list means allocations succeed. -/
abbrev AllocH := List Bool

/-- Pop one allocation outcome. -/
def hpop (h : AllocH) : Bool × AllocH :=
  match h with
  | [] => (true, [])
  | b :: rest => (b, rest)

/-- `DISPPARAMS`: positional arguments (`rgvarg`) and named-argument DISPIDs
(`rgdispidNamedArgs`, of length `cNamedArgs`). -/
structure Dispparams where
  args : List Variant
  namedArgs : List Int
deriving DecidableEq, Repr

/-- Replace slot `idx` (no-op when out of range, like the callers' contracts
guarantee). -/
def setSlot (o : JsObj) (idx : Nat) (s : DProp) : JsObj :=
  { o with props := o.props.set idx s }

/-- Update slot `idx` in place. -/
def modSlot (o : JsObj) (idx : Nat) (f : DProp → DProp) : JsObj :=
  match o.props[idx]? with
  | none => o
  | some s => setSlot o idx (f s)

/-- `get_prop`: the slot at index `id` when `0 <= id < prop_cnt` and the slot
is not a tombstone; slots are addressed by index (`prop_to_id` is the
identity on indices). -/
def get_prop (o : JsObj) (id : Int) : Option Nat :=
  if id < 0 then none
  else
    match o.props[id.toNat]? with
    | none => none
    | some s => if s.type = .deleted then none else some id.toNat

/-- `get_flags`: effective flags of slot `idx`, following `PROP_PROTREF`
indirection through the prototype chain; a stale reference converts the local
slot to `PROP_DELETED` and reports `0`.  Returns the flags together with the
updated object and chain. -/
def get_flags (o : JsObj) (protos : List JsObj) (idx : Nat) :
    Option (Nat × JsObj × List JsObj) :=
  match o.props[idx]? with
  | none => none
  | some s =>
    if s.type = .protref then
      match s.u with
      | .ref r =>
        match protos with
        | [] => none    -- This->prototype == NULL: NULL dereference
        | p :: rest =>
          match get_prop p (r : Int) with
          | none => some (0, modSlot o idx (fun t => { t with type := .deleted }), p :: rest)
          | some pidx =>
            match get_flags p rest pidx with
            | none => none
            | some (f, p', rest') => some (f, o, p' :: rest')
      | _ => none       -- union does not hold a prototype index
    else
      some (s.flags, o, protos)

/-- `find_builtin_prop`'s binary-search loop.  The C loop keeps inclusive
bounds `min..max`; here `lo = min` and `hi = max + 1`, so the loop guard
`min <= max` becomes `lo < hi` and the probe `(min+max)/2` becomes
`(lo+hi-1)/2`.  Indexing past the array (impossible when `hi <= length`)
returns `none`. -/
def find_builtin_aux (bprops : List BProp) (name : Wstr) :
    Nat → Nat → Nat → Option BProp
  | 0, _, _ => none
  | fuel + 1, lo, hi =>
    if lo < hi then
      match bprops[(lo + hi - 1) / 2]? with
      | none => none
      | some b =>
        if cmpW name b.name = 0 then some b
        else if cmpW name b.name < 0 then
          find_builtin_aux bprops name fuel lo ((lo + hi - 1) / 2)
        else
          find_builtin_aux bprops name fuel ((lo + hi - 1) / 2 + 1) hi
    else none

/-- `find_builtin_prop`: binary search of the class's sorted descriptor
array.  Each iteration shrinks `hi - lo` by at least one, so fuel
`length + 1` never runs out (`find_builtin_aux_complete` proves the searches
that matter already succeed with this fuel). -/
def find_builtin_prop (o : JsObj) (name : Wstr) : Option BProp :=
  find_builtin_aux o.builtinProps name (o.builtinProps.length + 1) 0
    o.builtinProps.length

/-- The tail of `alloc_prop` after the growth step: `prop_cnt++` appends the
slot with `type` and `flags` set and `name = heap_strdupW(name)`; a NULL
input or a failed `heap_strdupW` leaves a NULL name and reports failure —
the slot stays appended. -/
def alloc_prop_append (o : JsObj) (name : Option Wstr) (ty : PropType)
    (flags : Nat) (h : AllocH) : Option Nat × JsObj × AllocH :=
  match name with
  | none => (none, { o with props := o.props ++ [⟨none, ty, flags, .undef⟩] }, h)
  | some nm =>
    match hpop h with
    | (true, h') =>
      (some o.props.length, { o with props := o.props ++ [⟨some nm, ty, flags, .undef⟩] }, h')
    | (false, h') =>
      (none, { o with props := o.props ++ [⟨none, ty, flags, .undef⟩] }, h')

/-- `alloc_prop`: when the array is full, `buf_size <<= 1` happens inside the
`heap_realloc` argument — so the capacity bookkeeping is doubled even when
the reallocation fails and the failure is reported; then the slot is
appended. -/
def alloc_prop (o : JsObj) (name : Option Wstr) (ty : PropType) (flags : Nat)
    (h : AllocH) : Option Nat × JsObj × AllocH :=
  if o.bufSize = o.props.length then
    match hpop h with
    | (false, h') => (none, { o with bufSize := o.bufSize * 2 }, h')
    | (true, h') => alloc_prop_append { o with bufSize := o.bufSize * 2 } name ty flags h'
  else alloc_prop_append o name ty flags h

/-- `alloc_protref`: `alloc_prop` with kind `PROP_PROTREF` and flags `0`,
then store the prototype slot index in the union. -/
def alloc_protref (o : JsObj) (name : Option Wstr) (r : Nat) (h : AllocH) :
    Option Nat × JsObj × AllocH :=
  match alloc_prop o name .protref 0 h with
  | (none, o', h') => (none, o', h')
  | (some i, o', h') => (some i, modSlot o' i (fun t => { t with u := .ref r }), h')

/-- The scan condition `prop->name && !strcmpW(prop->name, name)`.  A NULL
slot name short-circuits to no-match; comparing a non-NULL slot name against
a NULL query dereferences NULL inside `strcmpW` (UB, modelled as `none`). -/
def nameMatches (pn : Option Wstr) (name : Option Wstr) : Option Bool :=
  match pn, name with
  | none, _ => some false
  | some s, some n => some (cmpW s n = 0)
  | some _, none => none

/-- The linear scan of `find_prop_name`: index of the first matching slot. -/
def scanProps : List DProp → Option Wstr → Nat → Option (Option Nat)
  | [], _, _ => some none
  | p :: rest, name, i =>
    match nameMatches p.name name with
    | none => none
    | some true => some (some i)
    | some false => scanProps rest name (i + 1)

/-- `find_builtin_prop` reached with a possibly-NULL name: a NULL query
against a non-empty descriptor array passes NULL to `strcmpW` at the first
probe (UB); against an empty array the loop never runs and reports absent. -/
def find_builtin_propO (o : JsObj) (name : Option Wstr) : Option (Option BProp) :=
  match name with
  | some n => some (find_builtin_prop o n)
  | none => if o.builtinProps.isEmpty then some none else none

/-- `find_prop_name`: linear scan of the local table; on a miss, binary
search of the class descriptors and, on a hit there, materialization of a new
`PROP_BUILTIN` slot caching the descriptor.  `S_OK` with no slot means the
name is absent from both. -/
def find_prop_name (o : JsObj) (name : Option Wstr) (h : AllocH) :
    Option (Hres × Option Nat × JsObj × AllocH) :=
  match scanProps o.props name 0 with
  | none => none
  | some (some i) => some (.ok, some i, o, h)
  | some none =>
    match find_builtin_propO o name with
    | none => none
    | some none => some (.ok, none, o, h)
    | some (some b) =>
      match alloc_prop o name .builtin b.flags h with
      | (none, o', h') => some (.oom, none, o', h')
      | (some i, o', h') =>
        some (.ok, some i, modSlot o' i (fun t => { t with u := .builtin b }), h')

/-- The tail of `find_prop_name_prot`: when nothing was found anywhere,
optionally create a fresh own `PROP_VARIANT` slot (enumerable, initialised by
`VariantInit` to `VT_EMPTY`). -/
def fpnp_alloc_tail (o : JsObj) (protos : List JsObj) (name : Option Wstr)
    (alloc : Bool) (h : AllocH) :
    Option (Hres × Option Nat × JsObj × List JsObj × AllocH) :=
  if alloc then
    match alloc_prop o name .variant PROPF_ENUM h with
    | (none, o', h') => some (.oom, none, o', protos, h')
    | (some i, o', h') =>
      some (.ok, some i, modSlot o' i (fun t => { t with u := .var .empty }), protos, h')
  else some (.ok, none, o, protos, h)

/-- `find_prop_name_prot`: local lookup, then recursive lookup through the
prototype chain with `alloc=FALSE` (a hit there is cached as a local
`PROP_PROTREF` named after the prototype's slot), then optional creation of a
fresh own slot. -/
def find_prop_name_prot (o : JsObj) (protos : List JsObj) (name : Option Wstr)
    (alloc : Bool) (h : AllocH) :
    Option (Hres × Option Nat × JsObj × List JsObj × AllocH) :=
  match find_prop_name o name h with
  | none => none
  | some (hr, pi, o1, h1) =>
    if hr.failed then some (hr, none, o1, protos, h1)
    else
      match pi with
      | some i => some (.ok, some i, o1, protos, h1)
      | none =>
        match protos with
        | [] => fpnp_alloc_tail o1 [] name alloc h1
        | p :: rest =>
          match find_prop_name_prot p rest name false h1 with
          | none => none
          | some (hr2, pj, p1, rest1, h2) =>
            if hr2.failed then some (hr2, none, o1, p1 :: rest1, h2)
            else
              match pj with
              | none => fpnp_alloc_tail o1 (p1 :: rest1) name alloc h2
              | some j =>
                match p1.props[j]? with
                | none => none
                | some ps =>
                  match alloc_protref o1 ps.name j h2 with
                  | (none, o2, h3) => some (.oom, none, o2, p1 :: rest1, h3)
                  | (some i, o2, h3) => some (.ok, some i, o2, p1 :: rest1, h3)

/-- `prop_get`: read a resolved slot.  Method-like builtins are not readable
as accessors (`E_NOTIMPL`); other builtins delegate to the descriptor;
`PROP_PROTREF` recurses into the prototype's table (the source indexes
`This->prototype->props + prop->u.ref` without a bounds or tombstone check);
`PROP_VARIANT` returns a copy of the stored value; the switch default
(tombstones included) is `E_FAIL`. -/
def prop_get (o : JsObj) (protos : List JsObj) (idx : Nat) :
    Option (Hres × Option Variant) :=
  match o.props[idx]? with
  | none => none
  | some s =>
    match s.type with
    | .builtin =>
      match s.u with
      | .builtin b =>
        if b.flags &&& PROPF_METHOD ≠ 0 then some (.notimpl, none)
        else some (.delegated, none)
      | _ => none
    | .protref =>
      match s.u with
      | .ref r =>
        match protos with
        | [] => none
        | p :: rest =>
          match p.props[r]? with
          | none => none
          | some _ => prop_get p rest r
      | _ => none
    | .variant =>
      match s.u with
      | .var v => some (.ok, some v)
      | _ => none
    | .deleted => some (.fail, none)

/-- Index of the `DISPID_PROPERTYPUT` named argument, `i == cNamedArgs`
(no value supplied) mapping to `none`. -/
def findPutIdx (named : List Int) : Option Nat :=
  named.findIdx? (· == DISPID_PROPERTYPUT)

/-- `prop_put`: a non-method `PROP_BUILTIN` delegates to the descriptor's
setter with no local mutation; a method-like builtin and a `PROP_PROTREF`
are first normalized in place to an empty enumerable `PROP_VARIANT`; a
`PROP_VARIANT` has its payload cleared; only then is the value argument
looked up — its absence reports `DISP_E_PARAMNOTOPTIONAL` *after* those
mutations.  (The optional `on_put` hook is an external collaborator with no
modelled effect on the table.) -/
def prop_put (o : JsObj) (idx : Nat) (dp : Dispparams) : Option (Hres × JsObj) :=
  match o.props[idx]? with
  | none => none
  | some s =>
    if s.type = .builtin ∧ s.flags &&& PROPF_METHOD = 0 then some (.delegated, o)
    else if s.type = .deleted then some (.fail, o)
    else
      let s1 :=
        if s.type = .variant then { s with u := .var .empty }
        else { s with type := .variant, flags := PROPF_ENUM, u := PropU.var .empty }
      let o1 := setSlot o idx s1
      match findPutIdx dp.namedArgs with
      | none => some (.paramMissing, o1)
      | some i =>
        match dp.args[i]? with
        | none => none
        | some v => some (.ok, setSlot o1 idx { s1 with u := .var v })

/-- The loop of `fill_protrefs` over the prototype's slots (`base` is the
index `iter - This->prototype->props`): each named prototype slot not found
locally is cached as a local `PROP_PROTREF`.  A NULL prototype-slot name is
passed to `find_prop_name` (the reserved slot 0 always has one), where it
reaches `strcmpW` against any named local slot — UB in the source. -/
def fill_protrefs_scan (o : JsObj) (pslots : List DProp) (base : Nat)
    (h : AllocH) : Option (Hres × JsObj × AllocH) :=
  match pslots with
  | [] => some (.ok, o, h)
  | s :: rest =>
    match find_prop_name o s.name h with
    | none => none
    | some (hr, pi, o1, h1) =>
      if hr.failed then some (hr, o1, h1)
      else
        match pi with
        | some _ => fill_protrefs_scan o1 rest (base + 1) h1
        | none =>
          match alloc_protref o1 s.name base h1 with
          | (none, o2, h2) => some (.oom, o2, h2)
          | (some _, o2, h2) => fill_protrefs_scan o2 rest (base + 1) h2

/-- `fill_protrefs`: recursively materialize the ancestors' inherited names
first (the source ignores the recursive call's HRESULT), then cache every
prototype slot locally. -/
def fill_protrefs (o : JsObj) (protos : List JsObj) (h : AllocH) :
    Option (Hres × JsObj × List JsObj × AllocH) :=
  match protos with
  | [] => some (.ok, o, [], h)
  | p :: rest =>
    match fill_protrefs p rest h with
    | none => none
    | some (_, p1, rest1, h1) =>
      match fill_protrefs_scan o p1.props 0 h1 with
      | none => none
      | some (hr, o1, h2) => some (hr, o1, p1 :: rest1, h2)

/-- The `while(iter < This->props + This->prop_cnt)` scan of
`DispatchEx_GetNextDispID`, fuelled (the wrapper passes enough fuel for the
whole table).  `get_flags` is only consulted for named slots, and its
self-healing mutations persist across iterations. -/
def next_scan (fuel : Nat) (o : JsObj) (protos : List JsObj) (i : Nat) :
    Option (Hres × Int × JsObj × List JsObj) :=
  match fuel with
  | 0 => none
  | fuel + 1 =>
    match o.props[i]? with
    | none => some (.sfalse, DISPID_STARTENUM, o, protos)
    | some s =>
      if s.name ≠ none then
        match get_flags o protos i with
        | none => none
        | some (f, o', protos') =>
          if f &&& PROPF_ENUM ≠ 0 then some (.ok, (i : Int), o', protos')
          else next_scan fuel o' protos' (i + 1)
      else next_scan fuel o protos (i + 1)

/-- `DispatchEx_GetNextDispID` after the start-sentinel handling: the scan
begins at `get_prop(This, id+1)` — which reports "not found" for a tombstone
as well as for an out-of-range index — and a `NULL` there immediately resets
the cursor and signals no-more (`S_FALSE`). -/
def getNextFrom (o : JsObj) (protos : List JsObj) (id : Int) (h : AllocH) :
    Option (Hres × Option Int × JsObj × List JsObj × AllocH) :=
  match get_prop o (id + 1) with
  | none => some (.sfalse, some DISPID_STARTENUM, o, protos, h)
  | some idx =>
    match next_scan (o.props.length - idx + 1) o protos idx with
    | none => none
    | some (hr, pid, o2, protos2) => some (hr, some pid, o2, protos2, h)

/-- `DispatchEx_GetNextDispID`: on the start sentinel, first `fill_protrefs`
(a failure there returns without writing `*pid`, modelled as a `none` id);
then scan from the slot after the cursor. -/
def DispatchEx_GetNextDispID (o : JsObj) (protos : List JsObj) (id : Int)
    (h : AllocH) : Option (Hres × Option Int × JsObj × List JsObj × AllocH) :=
  if id = DISPID_STARTENUM then
    match fill_protrefs o protos h with
    | none => none
    | some (hr, o1, protos1, h1) =>
      if hr.failed then some (hr, none, o1, protos1, h1)
      else getNextFrom o1 protos1 id h1
  else getNextFrom o protos id h

/-- The result tuple of `DispatchEx_GetNextDispID` compared for equality in
concrete computations; registered explicitly because the nested product is
past the synthesizer's default search. -/
instance : DecidableEq (Hres × Option Int × JsObj × List JsObj × AllocH) :=
  inferInstance

instance : DecidableEq (Option (Hres × Option Int × JsObj × List JsObj × AllocH)) :=
  inferInstance

/-- The name string `"prototype"` of the reserved slot 1. -/
def prototypeW : Wstr := [112, 114, 111, 116, 111, 116, 121, 112, 101]

/-- `jsdisp_set_prot_prop`: reports `E_OUTOFMEMORY` when slot 1 has no name
(its `SysAllocString` failed during init); otherwise converts slot 1 in place
to a `PROP_VARIANT` with flags `0` holding a `VT_DISPATCH` reference to the
prototype. -/
def jsdisp_set_prot_prop (o : JsObj) (protoTok : Nat) : Option (Hres × JsObj) :=
  match o.props[1]? with
  | none => none
  | some s =>
    if s.name = none then some (.oom, o)
    else
      some (.ok, setSlot o 1
        { s with type := .variant, flags := 0, u := .var (.dispatch protoTok) })

/-- The parts of `builtin_info_t` the table operations consult.  `valueProp`
is `some` exactly when `value_prop.invoke` is non-NULL (its descriptor is the
payload cached in slot 0; its NULL name is never read by any modelled
operation). -/
structure BuiltinInfo where
  props : List BProp
  valueProp : Option BProp
  hasDestructor : Bool
  hasOnPut : Bool

/-- `init_dispex` (table part): allocate the 4-slot array, build the two
reserved slots — slot 0 caches the class's default-value builtin or is
immediately a tombstone; slot 1 is a tombstone named `"prototype"` (the
`SysAllocString` result is not checked) — and, when a prototype is supplied,
convert slot 1 via `jsdisp_set_prot_prop` (on failure the partially built
object is released and the error returned). -/
def init_dispex (binfo : BuiltinInfo) (protoTok : Option Nat) (h : AllocH) :
    Hres × Option JsObj × AllocH :=
  let (okProps, h1) := hpop h
  if ¬okProps then (.oom, none, h1)
  else
    let (okName, h2) := hpop h1
    let slot0 : DProp :=
      match binfo.valueProp with
      | some b => ⟨none, .builtin, 0, .builtin b⟩
      | none => ⟨none, .deleted, 0, .undef⟩
    let slot1 : DProp := ⟨if okName then some prototypeW else none, .deleted, 0, .undef⟩
    let o : JsObj := ⟨[slot0, slot1], 4, binfo.props, binfo.valueProp.isSome,
                      binfo.hasDestructor, binfo.hasOnPut⟩
    match protoTok with
    | none => (.ok, some o, h2)
    | some tok =>
      match jsdisp_set_prot_prop o tok with
      | none => (.fail, none, h2)
      | some (hr, o') =>
        if hr.failed then (hr, none, h2)
        else (.ok, some o', h2)

/-- The `DISPATCH_PROPERTYGET` path of `DispatchEx_InvokeEx`: an id that is
out of range or names a tombstone reports `DISP_E_MEMBERNOTFOUND` before any
dispatch. -/
def DispatchEx_InvokeEx_get (o : JsObj) (protos : List JsObj) (id : Int) :
    Option (Hres × Option Variant) :=
  match get_prop o id with
  | none => some (.memberNotFound, none)
  | some idx => prop_get o protos idx

/-! ### Lifecycle model (`DispatchEx_AddRef` / `DispatchEx_Release`)

Host objects share prototypes, so reference counting is modelled on an
explicit heap of objects addressed by token.  Only the data destruction needs:
each slot records whether it is a `PROP_VARIANT` and whether its payload is a
`VT_DISPATCH` reference to another heap object (`VariantClear` of such a
payload calls `Release` on the referenced object).  The destruction sequence
is also recorded as a trace of effects, in source order. -/

namespace RC

/-- One step of the destruction sequence of `DispatchEx_Release`. -/
inductive Effect where
  | varCleared (idx : Nat)   -- VariantClear of slot idx's payload
  | released (tok : Nat)     -- the Release this VariantClear performed on a VT_DISPATCH payload
  | nameFreed (idx : Nat)    -- heap_free(prop->name)
  | arrayFreed               -- heap_free(This->props)
  | ctxReleased              -- script_release(This->ctx)
  | dtorRun                  -- builtin_info->destructor(This)
  | genericFreed             -- heap_free(This)
deriving DecidableEq, Repr

/-- A slot as the lifecycle code sees it. -/
structure RSlot where
  ty : PropType
  disp : Option Nat   -- some tok when the variant payload is VT_DISPATCH → tok
deriving DecidableEq, Repr

/-- A heap object: reference count, slots, finalizer registration. -/
structure RObj where
  ref : Nat
  slots : List RSlot
  hasDtor : Bool
deriving DecidableEq, Repr

/-- The heap: objects addressed by token; `none` is a freed/absent object. -/
abbrev RHeap := List (Option RObj)

/-- The destruction machinery, fuelled so that it is structurally recursive
(each step consumes one unit; any fuel at least the object's slot count, and
transitively that of the released payload targets, is enough — the theorems
hold for every sufficient fuel).  `Sum.inl tok` is a `DispatchEx_Release`
call: atomically decrement; on reaching zero run the destruction sequence —
per slot, `VariantClear` the payload of `PROP_VARIANT` slots (releasing a
`VT_DISPATCH` payload's target) and free the name string; then free the
backing array, release the script context, and run the class destructor in
place of the generic `heap_free`.  `Sum.inr (slots, i)` is the destruction
loop over the remaining slots, `i` tracking `prop - This->props`. -/
def release_go : Nat → RHeap → Sum Nat (List RSlot × Nat) → RHeap × List Effect
  | 0, hp, _ => (hp, [])
  | fuel + 1, hp, Sum.inl tok =>
    match hp[tok]? with
    | none => (hp, [])
    | some none => (hp, [])
    | some (some o) =>
      let r := (o.ref + (2 ^ 32 - 1)) % 2 ^ 32
      if r = 0 then
        let rs := release_go fuel (hp.set tok none) (Sum.inr (o.slots, 0))
        (rs.1, rs.2 ++ [Effect.arrayFreed, Effect.ctxReleased] ++
          (if o.hasDtor then [Effect.dtorRun] else [Effect.genericFreed]))
      else (hp.set tok (some { o with ref := r }), [])
  | _ + 1, hp, Sum.inr ([], _) => (hp, [])
  | fuel + 1, hp, Sum.inr (s :: rest, i) =>
    let step : RHeap × List Effect :=
      if s.ty = .variant then
        match s.disp with
        | some t =>
          let r := release_go fuel hp (Sum.inl t)
          (r.1, [Effect.varCleared i, Effect.released t] ++ r.2)
        | none => (hp, [Effect.varCleared i])
      else (hp, [])
    let r2 := release_go fuel step.1 (Sum.inr (rest, i + 1))
    (r2.1, step.2 ++ [Effect.nameFreed i] ++ r2.2)

/-- `DispatchEx_Release` entry point. -/
def DispatchEx_Release (fuel : Nat) (hp : RHeap) (tok : Nat) :
    RHeap × List Effect :=
  release_go fuel hp (Sum.inl tok)

/-- A shared prototype retained by two children (tokens 1 and 2): ref 2. -/
def sampleProtoRC : RObj := ⟨2, [], false⟩

/-- A child (token 1): canonical layout — slot 0 a tombstone, slot 1 the
`"prototype"` slot whose `VT_DISPATCH` payload references token 0. -/
def sampleChildRC1 : RObj := ⟨1, [⟨.deleted, none⟩, ⟨.variant, some 0⟩], false⟩

/-- A second child (token 2), same layout but with a registered destructor. -/
def sampleChildRC2 : RObj := ⟨1, [⟨.deleted, none⟩, ⟨.variant, some 0⟩], true⟩

/-- The heap holding the prototype and both children. -/
def sampleHeapRC : RHeap := [some sampleProtoRC, some sampleChildRC1, some sampleChildRC2]

end RC

/-! ### Invariants and evolution predicates -/

/-- The slot-kind transitions the dispatch operations are claimed to allow:
stay, tombstoning, and the put-time shadowing `Builtin/ProtRef → Value`. -/
def kindStep (a b : PropType) : Prop :=
  a = b ∨ b = .deleted ∨ (b = .variant ∧ (a = .builtin ∨ a = .protref))

instance (a b : PropType) : Decidable (kindStep a b) := by
  unfold kindStep; infer_instance

/-- An existing slot evolves by an allowed kind transition without its name
being reassigned. -/
def slotEvolves (s t : DProp) : Prop :=
  t.name = s.name ∧ kindStep s.type t.type

instance (s t : DProp) : Decidable (slotEvolves s t) := by
  unfold slotEvolves; infer_instance

/-- Slot `i` of `o` evolves into slot `i` of `o₂` (a slot may never
disappear). -/
def slotEvolvesAt (o o₂ : JsObj) (i : Nat) : Prop :=
  match o.props[i]?, o₂.props[i]? with
  | some s, some t => slotEvolves s t
  | none, _ => True
  | some _, none => False

instance (o o₂ : JsObj) (i : Nat) : Decidable (slotEvolvesAt o o₂ i) := by
  unfold slotEvolvesAt
  rcases o.props[i]? with _ | s <;> rcases o₂.props[i]? with _ | t <;> infer_instance

/-- An operation evolves a property table: no slot is removed, identifiers
(indices) are stable, each existing slot keeps its name and makes only an
allowed kind transition. -/
def tableEvolves (o o₂ : JsObj) : Prop :=
  o.props.length ≤ o₂.props.length ∧ ∀ i, i < o.props.length → slotEvolvesAt o o₂ i

instance (o o₂ : JsObj) : Decidable (tableEvolves o o₂) := by
  unfold tableEvolves; infer_instance

/-- Pointwise evolution of the prototype chain. -/
def chainEvolves (pr pr₂ : List JsObj) : Prop := List.Forall₂ tableEvolves pr pr₂

/-- A table only gained new slots (existing ones untouched). -/
def gainsOnly (o o₂ : JsObj) : Prop := ∃ l, o₂.props = o.props ++ l

/-- A table only gained cache slots: new slots are all materialized builtins
or protorefs, existing ones untouched (what the prototype-chain recursion
actually guarantees in place of "search-only"). -/
def gainsOnlyCaches (o o₂ : JsObj) : Prop :=
  ∃ l, o₂.props = o.props ++ l ∧ ∀ s ∈ l, s.type = .builtin ∨ s.type = .protref

/-- The reserved slot 1 is inert for enumeration: the table still has its two
reserved slots, and slot 1 carries no `Enumerable` flag and is not a protoref
(it never becomes one: protorefs are only ever appended at indices ≥ 2). -/
def protSlotInert (o : JsObj) : Prop :=
  2 ≤ o.props.length ∧
    ∀ s, o.props[1]? = some s → s.flags &&& PROPF_ENUM = 0 ∧ s.type ≠ .protref

/-- A class descriptor array sorted strictly ascending by `strcmpW`. -/
def sortedB (l : List BProp) : Prop :=
  l.Pairwise (fun a b => cmpW a.name b.name < 0)

instance (l : List BProp) : Decidable (sortedB l) := by
  unfold sortedB; infer_instance

/-- All descriptor names are valid C strings. -/
def validB (l : List BProp) : Prop := ∀ b ∈ l, noNul b.name

instance (l : List BProp) : Decidable (validB l) := by
  unfold validB; infer_instance

/-! ### Concrete sample states used by counterexamples and witnesses -/

/-- The name `"x"`. -/
def nmX : Wstr := [120]

/-- The name `"y"`. -/
def nmY : Wstr := [121]

/-- The name `"m"`. -/
def nmM : Wstr := [109]

/-- A freshly initialised object of a class with no builtins and no
default-value member (e.g. `dispex_info`), no prototype: slot 0 is an
immediate tombstone, slot 1 the named `"prototype"` tombstone. -/
def sampleBare : JsObj :=
  ⟨[⟨none, .deleted, 0, .undef⟩, ⟨some prototypeW, .deleted, 0, .undef⟩],
   4, [], false, false, false⟩

/-- `sampleBare` after `put` created the enumerable own property `"x" = 5`
(slot 2). -/
def sampleWithX : JsObj :=
  ⟨[⟨none, .deleted, 0, .undef⟩, ⟨some prototypeW, .deleted, 0, .undef⟩,
    ⟨some nmX, .variant, PROPF_ENUM, .var (.num 5)⟩],
   4, [], false, false, false⟩

/-- An object with a prototype (token 0) whose slot 2 is a cached protoref
for `"x"` to the prototype's slot 2. -/
def sampleChild : JsObj :=
  ⟨[⟨none, .deleted, 0, .undef⟩,
    ⟨some prototypeW, .variant, 0, .var (.dispatch 0)⟩,
    ⟨some nmX, .protref, 0, .ref 2⟩],
   4, [], false, false, false⟩

/-- A prototype that used to define `"x"` in slot 2 and has since tombstoned
it. -/
def sampleProtoStale : JsObj :=
  ⟨[⟨none, .deleted, 0, .undef⟩, ⟨some prototypeW, .deleted, 0, .undef⟩,
    ⟨some nmX, .deleted, PROPF_ENUM, .var (.num 3)⟩],
   4, [], false, false, false⟩

/-- A prototype defining `"x"` as an own enumerable value in slot 2. -/
def sampleProtoX : JsObj :=
  ⟨[⟨none, .deleted, 0, .undef⟩, ⟨some prototypeW, .deleted, 0, .undef⟩,
    ⟨some nmX, .variant, PROPF_ENUM, .var (.num 3)⟩],
   4, [], false, false, false⟩

/-- A fresh object whose class declares the (method-like) builtin `"m"`,
not yet materialized. -/
def sampleProtoM : JsObj :=
  ⟨[⟨none, .deleted, 0, .undef⟩, ⟨some prototypeW, .deleted, 0, .undef⟩],
   4, [⟨nmM, PROPF_METHOD⟩], false, false, false⟩

/-- A child (prototype token 0) of a class with no builtins. -/
def sampleChildBare : JsObj :=
  ⟨[⟨none, .deleted, 0, .undef⟩,
    ⟨some prototypeW, .variant, 0, .var (.dispatch 0)⟩],
   4, [], false, false, false⟩

/-- An object whose class declares the non-method builtin `"m"` (an accessor),
already materialized into slot 2, and which also stores `"x"`. -/
def sampleAccessor : JsObj :=
  ⟨[⟨none, .deleted, 0, .undef⟩,
    ⟨some prototypeW, .variant, 0, .var (.dispatch 0)⟩,
    ⟨some nmM, .builtin, 0, .builtin ⟨nmM, 0⟩⟩],
   4, [⟨nmM, 0⟩], false, false, false⟩

/-- A prototype that defines `"m"` as an own enumerable value in slot 2. -/
def sampleProtoOwnM : JsObj :=
  ⟨[⟨none, .deleted, 0, .undef⟩, ⟨some prototypeW, .deleted, 0, .undef⟩,
    ⟨some nmM, .variant, PROPF_ENUM, .var (.num 3)⟩],
   4, [], false, false, false⟩

/-- A one-slot table whose backing array is full (`prop_cnt == buf_size`). -/
def sampleFull : JsObj :=
  ⟨[⟨some nmX, .variant, PROPF_ENUM, .var (.num 1)⟩], 1, [], false, false, false⟩

/-- A full table whose class declares builtin `"m"`. -/
def sampleFullB : JsObj :=
  ⟨[⟨some nmX, .variant, PROPF_ENUM, .var (.num 1)⟩], 1,
   [⟨nmM, 0⟩], false, false, false⟩

/-- A class with no builtins and no value prop. -/
def sampleInfo : BuiltinInfo := ⟨[], none, false, false⟩

/-! ## Properties of `strcmpW` -/

theorem cmpW_self (a : Wstr) : cmpW a a = 0 := by
  induction a with
  | nil => rfl
  | cons x xs ih => simp [cmpW, ih]

theorem cmpW_eq_zero_iff {a b : Wstr} (ha : noNul a) (hb : noNul b) :
    cmpW a b = 0 ↔ a = b := by
  induction a generalizing b with
  | nil =>
    cases b with
    | nil => simp [cmpW]
    | cons y ys =>
      simp only [noNul, List.mem_cons, not_or] at hb
      simp [cmpW]
      omega
  | cons x xs ih =>
    simp only [noNul, List.mem_cons, not_or] at ha
    cases b with
    | nil =>
      simp [cmpW]
      omega
    | cons y ys =>
      simp only [noNul, List.mem_cons, not_or] at hb
      by_cases hxy : x = y
      · subst hxy
        have hx0 : ¬x = 0 := fun h => ha.1 h.symm
        simp [cmpW, hx0, ih ha.2 hb.2]
      · simp [cmpW, hxy]
        omega

theorem cmpW_neg_iff (a b : Wstr) : cmpW a b < 0 ↔ 0 < cmpW b a := by
  induction a generalizing b with
  | nil =>
    cases b with
    | nil => simp [cmpW]
    | cons y ys => simp [cmpW]
  | cons x xs ih =>
    cases b with
    | nil => simp [cmpW]
    | cons y ys =>
      by_cases hxy : x = y
      · subst hxy
        by_cases hx0 : x = 0 <;> simp [cmpW, hx0, ih]
      · have hyx : ¬y = x := fun h => hxy h.symm
        simp only [cmpW, if_neg hxy, if_neg hyx]
        omega

theorem cmpW_lt_trans {a b c : Wstr} (hab : cmpW a b < 0) (hbc : cmpW b c < 0) :
    cmpW a c < 0 := by
  induction a generalizing b c with
  | nil =>
    cases b with
    | nil => simp [cmpW] at hab
    | cons y ys =>
      cases c with
      | nil => simp only [cmpW] at hbc; omega
      | cons z zs =>
        simp only [cmpW] at hab ⊢
        by_cases hyz : y = z
        · subst hyz; omega
        · simp only [cmpW, if_neg hyz] at hbc; omega
  | cons x xs ih =>
    cases b with
    | nil => simp only [cmpW] at hab; omega
    | cons y ys =>
      cases c with
      | nil => simp only [cmpW] at hbc; omega
      | cons z zs =>
        by_cases hxy : x = y
        · subst hxy
          by_cases hx0 : x = 0
          · simp only [cmpW, if_pos rfl, if_pos hx0] at hab; omega
          · simp only [cmpW, if_pos rfl, if_neg hx0] at hab
            by_cases hxz : x = z
            · subst hxz
              simp only [cmpW, if_pos rfl, if_neg hx0] at hbc ⊢
              exact ih hab hbc
            · simp only [cmpW, if_neg hxz] at hbc ⊢
              omega
        · simp only [cmpW, if_neg hxy] at hab
          by_cases hyz : y = z
          · subst hyz
            simp only [cmpW, if_neg hxy]
            omega
          · simp only [cmpW, if_neg hyz] at hbc
            have hxz : ¬x = z := by
              intro h; subst h; omega
            simp only [cmpW, if_neg hxz]
            omega

/-! ## Correctness of the builtin binary search (C6 support) -/

theorem sortedB_lt {l : List BProp} (hs : sortedB l) {i j : Nat} {a b : BProp}
    (hij : i < j) (hi : l[i]? = some a) (hj : l[j]? = some b) :
    cmpW a.name b.name < 0 := by
  rw [List.getElem?_eq_some] at hi hj
  obtain ⟨hi', hia⟩ := hi
  obtain ⟨hj', hjb⟩ := hj
  have := List.pairwise_iff_getElem.mp hs i j hi' hj' hij
  rwa [hia, hjb] at this

theorem find_builtin_aux_sound (l : List BProp) (q : Wstr) :
    ∀ (fuel lo hi : Nat) (b : BProp),
      find_builtin_aux l q fuel lo hi = some b →
      (∃ t, lo ≤ t ∧ t < hi ∧ l[t]? = some b) ∧ cmpW q b.name = 0 := by
  intro fuel
  induction fuel with
  | zero =>
    intro lo hi b hfind
    simp [find_builtin_aux] at hfind
  | succ n ih =>
    intro lo hi b hfind
    unfold find_builtin_aux at hfind
    by_cases hlo : lo < hi
    · rw [if_pos hlo] at hfind
      cases hidx : l[(lo + hi - 1) / 2]? with
      | none => rw [hidx] at hfind; cases hfind
      | some c =>
        simp only [hidx] at hfind
        by_cases hr0 : cmpW q c.name = 0
        · rw [if_pos hr0] at hfind
          cases hfind
          exact ⟨⟨(lo + hi - 1) / 2, by omega, by omega, hidx⟩, hr0⟩
        · rw [if_neg hr0] at hfind
          by_cases hrneg : cmpW q c.name < 0
          · rw [if_pos hrneg] at hfind
            obtain ⟨⟨t, ht1, ht2, ht3⟩, hc⟩ := ih lo ((lo + hi - 1) / 2) b hfind
            exact ⟨⟨t, ht1, by omega, ht3⟩, hc⟩
          · rw [if_neg hrneg] at hfind
            obtain ⟨⟨t, ht1, ht2, ht3⟩, hc⟩ := ih ((lo + hi - 1) / 2 + 1) hi b hfind
            exact ⟨⟨t, by omega, ht2, ht3⟩, hc⟩
    · rw [if_neg hlo] at hfind
      cases hfind

theorem find_builtin_aux_complete (l : List BProp) (q : Wstr)
    (hs : sortedB l) (hv : validB l) (hq : noNul q) :
    ∀ (fuel lo hi t : Nat) (b : BProp), hi - lo ≤ fuel → hi ≤ l.length →
      lo ≤ t → t < hi → l[t]? = some b → b.name = q →
      find_builtin_aux l q fuel lo hi = some b := by
  intro fuel
  induction fuel with
  | zero =>
    intro lo hi t b hn _ hlt hth _ _
    omega
  | succ n ih =>
    intro lo hi t b hn hhi hlt hth hget hname
    have hlo : lo < hi := by omega
    unfold find_builtin_aux
    rw [if_pos hlo]
    have hibound : (lo + hi - 1) / 2 < l.length := by omega
    have hidx : l[(lo + hi - 1) / 2]? = some (l[(lo + hi - 1) / 2]) :=
      List.getElem?_eq_getElem hibound
    simp only [hidx]
    have hcmem : l[(lo + hi - 1) / 2] ∈ l := List.getElem_mem hibound
    by_cases hr0 : cmpW q (l[(lo + hi - 1) / 2]).name = 0
    · rw [if_pos hr0]
      have hqc : q = (l[(lo + hi - 1) / 2]).name :=
        (cmpW_eq_zero_iff hq (hv _ hcmem)).mp hr0
      have hti : t = (lo + hi - 1) / 2 := by
        rcases Nat.lt_trichotomy t ((lo + hi - 1) / 2) with h | h | h
        · exfalso
          have := sortedB_lt hs h hget hidx
          rw [hname, ← hqc] at this
          simp [cmpW_self] at this
        · exact h
        · exfalso
          have := sortedB_lt hs h hidx hget
          rw [hname, ← hqc] at this
          simp [cmpW_self] at this
      rw [hti] at hget
      rw [hidx] at hget
      exact hget
    · rw [if_neg hr0]
      by_cases hrneg : cmpW q (l[(lo + hi - 1) / 2]).name < 0
      · rw [if_pos hrneg]
        have htlt : t < (lo + hi - 1) / 2 := by
          rcases Nat.lt_trichotomy t ((lo + hi - 1) / 2) with h | h | h
          · exact h
          · exfalso
            rw [h, hidx] at hget
            cases hget
            rw [hname] at hr0
            exact hr0 (cmpW_self q)
          · exfalso
            have := sortedB_lt hs h hidx hget
            rw [hname] at this
            rw [cmpW_neg_iff] at this
            omega
        exact ih lo ((lo + hi - 1) / 2) t b (by omega) (by omega) hlt htlt hget hname
      · rw [if_neg hrneg]
        have htgt : (lo + hi - 1) / 2 < t := by
          rcases Nat.lt_trichotomy t ((lo + hi - 1) / 2) with h | h | h
          · exfalso
            have := sortedB_lt hs h hget hidx
            rw [hname] at this
            omega
          · exfalso
            rw [h, hidx] at hget
            cases hget
            rw [hname] at hr0
            exact hr0 (cmpW_self q)
          · exact h
        exact ih ((lo + hi - 1) / 2 + 1) hi t b (by omega) hhi (by omega) hth hget hname

/-- C6: for every class descriptor array sorted ascending by name, the
binary-search lookup returns the exact descriptor whose name equals the
queried name for every name present in the array, and returns absent for
every name not present. -/
theorem find_builtin_prop_correct (o : JsObj) (q : Wstr)
    (hs : sortedB o.builtinProps) (hv : validB o.builtinProps) (hq : noNul q) :
    (∀ (t : Nat) (b : BProp), o.builtinProps[t]? = some b → b.name = q →
        find_builtin_prop o q = some b) ∧
    ((∀ b ∈ o.builtinProps, b.name ≠ q) → find_builtin_prop o q = none) := by
  constructor
  · intro t b hget hname
    have ht : t < o.builtinProps.length := by
      by_contra hcon
      rw [List.getElem?_eq_none (by omega)] at hget
      cases hget
    unfold find_builtin_prop
    exact find_builtin_aux_complete o.builtinProps q hs hv hq
      (o.builtinProps.length + 1) 0 o.builtinProps.length t b (by omega) le_rfl
      (Nat.zero_le _) ht hget hname
  · intro habs
    cases hfind : find_builtin_prop o q with
    | none => rfl
    | some b =>
      exfalso
      unfold find_builtin_prop at hfind
      obtain ⟨⟨t, _, _, ht3⟩, hc⟩ :=
        find_builtin_aux_sound o.builtinProps q (o.builtinProps.length + 1) 0
          o.builtinProps.length b hfind
      have hmem : b ∈ o.builtinProps := by
        rw [List.getElem?_eq_some] at ht3
        obtain ⟨h1, h2⟩ := ht3
        exact h2 ▸ List.getElem_mem h1
      have := (cmpW_eq_zero_iff hq (hv b hmem)).mp hc
      exact habs b hmem this.symm

/-- Witness for `find_builtin_prop_correct` on the one-entry descriptor array
of `sampleFullB`: the present name `"m"` is found, the absent `"y"` is not. -/
theorem find_builtin_prop_correct_witness :
    find_builtin_prop sampleFullB nmM = some ⟨nmM, 0⟩ ∧
    find_builtin_prop sampleFullB nmY = none :=
  ⟨(find_builtin_prop_correct sampleFullB nmM (by decide) (by decide) (by decide)).1
      0 ⟨nmM, 0⟩ (by decide) rfl,
   (find_builtin_prop_correct sampleFullB nmY (by decide) (by decide) (by decide)).2
      (by decide)⟩

/-! ## C3: enumeration stops at a tombstone right after the cursor -/

/-- C3 (code bug): `sampleWithX` carries the enumerable own property `"x"`
at identifier 2 (named, effective flags include `Enumerable`), yet starting
the enumeration protocol at the start sentinel signals "no more" immediately
— `get_prop(This, id+1)` returns NULL for the tombstone in reserved slot 0
(the class has no default-value member), so the scan never starts even
though the table is not exhausted. -/
theorem getNextDispID_stops_at_leading_tombstone :
    DispatchEx_GetNextDispID sampleWithX [] DISPID_STARTENUM [] =
      some (.sfalse, some DISPID_STARTENUM, sampleWithX, [], []) ∧
    (sampleWithX.props[2]?).map DProp.name = some (some nmX) ∧
    get_flags sampleWithX [] 2 = some (PROPF_ENUM, sampleWithX, []) ∧
    PROPF_ENUM &&& PROPF_ENUM ≠ 0 := by decide

/-! ## C5: a failed allocation leaves a partial mutation behind -/

/-- C5 (code bug): on a full table (`prop_cnt == buf_size == 1`), a failing
`heap_realloc` makes `alloc_prop` report failure with `buf_size` already
doubled; a failing `heap_strdupW` reports failure with `prop_cnt` already
incremented and a nameless slot retained.  `find_prop_name` propagates the
failure as `E_OUTOFMEMORY` with the mutated object. -/
theorem alloc_prop_oom_partial_mutation :
    alloc_prop sampleFull (some nmY) .variant PROPF_ENUM [false] =
      (none, { sampleFull with bufSize := 2 }, []) ∧
    sampleFull.bufSize = 1 ∧
    alloc_prop sampleFull (some nmY) .variant PROPF_ENUM [true, false] =
      (none, { sampleFull with bufSize := 2
                               props := sampleFull.props ++
                                 [⟨none, .variant, PROPF_ENUM, .undef⟩] }, []) ∧
    sampleFull.props.length = 1 ∧
    find_prop_name sampleFullB (some nmM) [false] =
      some (.oom, none, { sampleFullB with bufSize := 2 }, []) := by decide

/-! ## C1: `put` with no value argument mutates before reporting -/

/-- C1 counterexample: `prop_put` with zero value arguments does report
`DISP_E_PARAMNOTOPTIONAL`, but the targeted slot is *not* identical
afterwards: a `ProtRef` slot has become an empty enumerable `Value` slot,
and a `Value` slot's payload has been cleared. -/
theorem prop_put_missing_value_mutates :
    prop_put sampleChild 2 ⟨[], []⟩ =
      some (.paramMissing,
        setSlot sampleChild 2 ⟨some nmX, .variant, PROPF_ENUM, .var .empty⟩) ∧
    (sampleChild.props[2]?).map DProp.type = some .protref ∧
    ((setSlot sampleChild 2
        ⟨some nmX, .variant, PROPF_ENUM, .var .empty⟩).props[2]?).map DProp.type =
      some .variant ∧
    prop_put sampleWithX 2 ⟨[], []⟩ =
      some (.paramMissing,
        setSlot sampleWithX 2 ⟨some nmX, .variant, PROPF_ENUM, .var .empty⟩) ∧
    (sampleWithX.props[2]?).map DProp.u = some (.var (.num 5)) ∧
    ((setSlot sampleWithX 2
        ⟨some nmX, .variant, PROPF_ENUM, .var .empty⟩).props[2]?).map DProp.u =
      some (.var .empty) := by decide

/-- C1 (amended): when `put` receives zero value arguments and the slot is a
`Value`, `ProtRef`, or method-like `Builtin` (the non-method builtin path
delegates to the descriptor instead), the operation reports
`DISP_E_PARAMNOTOPTIONAL` — but only after normalizing the slot: a `ProtRef`
or method-like `Builtin` becomes an empty enumerable `Value`, and a `Value`
slot's payload is cleared. -/
theorem prop_put_missing_value_reports (o : JsObj) (idx : Nat) (dp : Dispparams)
    (s : DProp) (hslot : o.props[idx]? = some s)
    (hnov : findPutIdx dp.namedArgs = none)
    (hkind : s.type = .protref ∨ s.type = .variant ∨
             (s.type = .builtin ∧ s.flags &&& PROPF_METHOD ≠ 0)) :
    prop_put o idx dp =
      some (.paramMissing,
        setSlot o idx
          (if s.type = .variant then { s with u := .var .empty }
           else { s with type := .variant, flags := PROPF_ENUM, u := .var .empty })) := by
  have h1 : ¬(s.type = .builtin ∧ s.flags &&& PROPF_METHOD = 0) := by
    rcases hkind with h | h | h
    · simp [h]
    · simp [h]
    · simp [h.2]
  have h2 : ¬s.type = .deleted := by
    rcases hkind with h | h | h
    · simp [h]
    · simp [h]
    · simp [h.1]
  simp only [prop_put, hslot, if_neg h1, if_neg h2, hnov]

/-- Witness for `prop_put_missing_value_reports`: the protoref slot of
`sampleChild`. -/
theorem prop_put_missing_value_reports_witness :
    prop_put sampleChild 2 ⟨[], [(-4 : Int)]⟩ =
      some (.paramMissing,
        setSlot sampleChild 2
          (if (⟨some nmX, .protref, 0, .ref 2⟩ : DProp).type = .variant then
            { (⟨some nmX, .protref, 0, .ref 2⟩ : DProp) with u := .var .empty }
           else { (⟨some nmX, .protref, 0, .ref 2⟩ : DProp) with
                    type := .variant, flags := PROPF_ENUM, u := .var .empty })) :=
  prop_put_missing_value_reports sampleChild 2 ⟨[], [(-4 : Int)]⟩
    ⟨some nmX, .protref, 0, .ref 2⟩ (by decide) (by decide) (by decide)

/-! ## C4: the recursive prototype search is not search-only -/

/-- C4 counterexample: resolving the class builtin `"m"` on a child whose
prototype declares it appends a materialized `PROP_BUILTIN` slot to the
*prototype's* own property table (besides the local `PROP_PROTREF` cache on
the child): the prototype's table grows from 2 to 3 slots. -/
theorem find_prop_name_prot_mutates_prototype :
    find_prop_name_prot sampleChildBare [sampleProtoM] (some nmM) false [] =
      some (.ok, some 2,
        { sampleChildBare with props :=
            sampleChildBare.props ++ [⟨some nmM, .protref, 0, .ref 2⟩] },
        [{ sampleProtoM with props :=
            sampleProtoM.props ++
              [⟨some nmM, .builtin, PROPF_METHOD, .builtin ⟨nmM, PROPF_METHOD⟩⟩] }],
        []) ∧
    sampleProtoM.props.length = 2 := by decide

/-! ## C8: a non-method builtin is not shadowed by `put` -/

/-- C8 counterexample: `sampleAccessor` (child, prototype token 0) and its
prototype `sampleProtoOwnM` both define `"m"`; the child's slot for `"m"` is
its class's non-method builtin.  A `put` with a value argument delegates to
the descriptor's setter (`delegated`) and leaves the slot a `PROP_BUILTIN` —
writing to this built-in member does **not** convert the local slot to an
own `Value` slot. -/
theorem prop_put_nonmethod_builtin_not_shadowed :
    find_prop_name_prot sampleAccessor [sampleProtoOwnM] (some nmM) false [] =
      some (.ok, some 2, sampleAccessor, [sampleProtoOwnM], []) ∧
    prop_put sampleAccessor 2 ⟨[.num 7], [DISPID_PROPERTYPUT]⟩ =
      some (.delegated, sampleAccessor) ∧
    (sampleAccessor.props[2]?).map DProp.type = some .builtin := by decide

/-! ## C9: `jsdisp_set_prot_prop` revives the slot-1 tombstone -/

/-- C9 counterexample: on a freshly initialised object the reserved slot 1
is a `PROP_DELETED` tombstone, and `jsdisp_set_prot_prop` (run whenever a
prototype is supplied) converts it to a `PROP_VARIANT` — a
`Deleted → Value` transition, so `Deleted` is not terminal. -/
theorem set_prot_prop_revives_deleted_slot :
    init_dispex sampleInfo none [] = (.ok, some sampleBare, []) ∧
    (sampleBare.props[1]?).map DProp.type = some .deleted ∧
    jsdisp_set_prot_prop sampleBare 7 =
      some (.ok, setSlot sampleBare 1 ⟨some prototypeW, .variant, 0, .var (.dispatch 7)⟩) ∧
    ((setSlot sampleBare 1
        ⟨some prototypeW, .variant, 0, .var (.dispatch 7)⟩).props[1]?).map DProp.type =
      some .variant := by decide

/-! ## C7: stale protorefs self-heal into tombstones -/

/-- C7: when a local `ProtRef` slot's referenced prototype slot is out of
range or tombstoned, `get_flags` converts the local slot itself to
`PROP_DELETED` and reports empty flags, and a subsequent identifier-based
get on the object reports `DISP_E_MEMBERNOTFOUND`. -/
theorem get_flags_stale_protref_self_heals
    (o p : JsObj) (rest : List JsObj) (idx r : Nat) (s : DProp)
    (hslot : o.props[idx]? = some s) (hty : s.type = .protref)
    (hu : s.u = .ref r) (hstale : get_prop p (r : Int) = none) :
    get_flags o (p :: rest) idx =
      some (0, setSlot o idx { s with type := .deleted }, p :: rest) ∧
    DispatchEx_InvokeEx_get (setSlot o idx { s with type := .deleted })
      (p :: rest) (idx : Int) = some (.memberNotFound, none) := by
  have hlen : idx < o.props.length := by
    rw [List.getElem?_eq_some] at hslot
    exact hslot.1
  constructor
  · unfold get_flags
    simp only [hslot, hty, hu, hstale, if_pos rfl, modSlot]
    simp
  · unfold DispatchEx_InvokeEx_get get_prop
    have hnn : ¬((idx : Int) < 0) := by omega
    have htn : (idx : Int).toNat = idx := Int.toNat_natCast idx
    simp only [if_neg hnn, htn, setSlot]
    rw [List.getElem?_set_self (by simpa using hlen)]
    simp

/-- Witness for `get_flags_stale_protref_self_heals`: the cached protoref of
`sampleChild` to the tombstoned slot 2 of `sampleProtoStale`. -/
theorem get_flags_stale_protref_self_heals_witness :
    get_flags sampleChild [sampleProtoStale] 2 =
      some (0, setSlot sampleChild 2
        { (⟨some nmX, .protref, 0, .ref 2⟩ : DProp) with type := .deleted },
        [sampleProtoStale]) ∧
    DispatchEx_InvokeEx_get
      (setSlot sampleChild 2
        { (⟨some nmX, .protref, 0, .ref 2⟩ : DProp) with type := .deleted })
      [sampleProtoStale] ((2 : Nat) : Int) = some (.memberNotFound, none) :=
  get_flags_stale_protref_self_heals sampleChild sampleProtoStale [] 2 2
    ⟨some nmX, .protref, 0, .ref 2⟩ (by decide) (by decide) (by decide) (by decide)

/-! ## Table-evolution infrastructure (C4, C9, C10 support) -/

theorem set_append_length {α : Type} (l : List α) (x y : α) :
    (l ++ [x]).set l.length y = l ++ [y] := by
  rw [List.set_append_right _ _ le_rfl]
  simp

theorem gainsOnly_refl (o : JsObj) : gainsOnly o o := ⟨[], by simp⟩

theorem gainsOnly_trans {a b c : JsObj} (h1 : gainsOnly a b) (h2 : gainsOnly b c) :
    gainsOnly a c := by
  obtain ⟨l1, h1⟩ := h1
  obtain ⟨l2, h2⟩ := h2
  exact ⟨l1 ++ l2, by rw [h2, h1, List.append_assoc]⟩

theorem gainsOnlyCaches_refl (o : JsObj) : gainsOnlyCaches o o :=
  ⟨[], by simp, by simp⟩

theorem gainsOnlyCaches_trans {a b c : JsObj} (h1 : gainsOnlyCaches a b)
    (h2 : gainsOnlyCaches b c) : gainsOnlyCaches a c := by
  obtain ⟨l1, h1, hl1⟩ := h1
  obtain ⟨l2, h2, hl2⟩ := h2
  refine ⟨l1 ++ l2, by rw [h2, h1, List.append_assoc], ?_⟩
  intro s hs
  rcases List.mem_append.mp hs with h | h
  · exact hl1 s h
  · exact hl2 s h

theorem gainsOnly_of_caches {a b : JsObj} (h : gainsOnlyCaches a b) :
    gainsOnly a b := by
  obtain ⟨l, hl, _⟩ := h
  exact ⟨l, hl⟩

theorem kindStep_refl (a : PropType) : kindStep a a := Or.inl rfl

theorem kindStep_trans_all : ∀ (a b c : PropType),
    kindStep a b → kindStep b c → kindStep a c := by decide

theorem kindStep_trans {a b c : PropType} (h1 : kindStep a b)
    (h2 : kindStep b c) : kindStep a c := kindStep_trans_all a b c h1 h2

theorem slotEvolves_refl (s : DProp) : slotEvolves s s := ⟨rfl, kindStep_refl _⟩

theorem slotEvolves_trans {s t u : DProp} (h1 : slotEvolves s t)
    (h2 : slotEvolves t u) : slotEvolves s u :=
  ⟨h2.1.trans h1.1, kindStep_trans h1.2 h2.2⟩

theorem tableEvolves_refl (o : JsObj) : tableEvolves o o := by
  refine ⟨le_rfl, fun i hi => ?_⟩
  unfold slotEvolvesAt
  cases h : o.props[i]? with
  | none => simp
  | some s => simp [slotEvolves_refl]

theorem tableEvolves_trans {a b c : JsObj} (h1 : tableEvolves a b)
    (h2 : tableEvolves b c) : tableEvolves a c := by
  obtain ⟨hl1, hs1⟩ := h1
  obtain ⟨hl2, hs2⟩ := h2
  refine ⟨hl1.trans hl2, fun i hi => ?_⟩
  have e1 := hs1 i hi
  have e2 := hs2 i (by omega)
  unfold slotEvolvesAt at e1 e2 ⊢
  cases ha : a.props[i]? with
  | none => simp
  | some s =>
    rw [ha] at e1
    cases hb : b.props[i]? with
    | none => rw [hb] at e1; exact absurd e1 (by simp)
    | some t =>
      rw [hb] at e1 e2
      cases hc : c.props[i]? with
      | none => rw [hc] at e2; exact absurd e2 (by simp)
      | some u =>
        rw [hc] at e2
        simp only at e1 e2 ⊢
        exact slotEvolves_trans e1 e2

theorem tableEvolves_of_gainsOnly {a b : JsObj} (h : gainsOnly a b) :
    tableEvolves a b := by
  obtain ⟨l, hl⟩ := h
  refine ⟨by rw [hl]; simp, fun i hi => ?_⟩
  unfold slotEvolvesAt
  rw [hl, List.getElem?_append_left hi]
  cases h : a.props[i]? with
  | none => simp
  | some s => simp [slotEvolves_refl]

theorem chainEvolves_refl (pr : List JsObj) : chainEvolves pr pr := by
  unfold chainEvolves
  induction pr with
  | nil => exact List.Forall₂.nil
  | cons p rest ih => exact List.Forall₂.cons (tableEvolves_refl p) ih

theorem chainEvolves_trans {a b c : List JsObj} (h1 : chainEvolves a b)
    (h2 : chainEvolves b c) : chainEvolves a c := by
  unfold chainEvolves at *
  induction h1 generalizing c with
  | nil => cases h2; exact List.Forall₂.nil
  | cons hab h1' ih =>
    cases h2 with
    | cons hbc h2' => exact List.Forall₂.cons (tableEvolves_trans hab hbc) (ih h2')

theorem chainEvolves_of_caches {a b : List JsObj}
    (h : List.Forall₂ gainsOnlyCaches a b) : chainEvolves a b :=
  List.Forall₂.imp
    (fun _ _ hg => tableEvolves_of_gainsOnly (gainsOnly_of_caches hg)) h


theorem forall₂_caches_refl (pr : List JsObj) :
    List.Forall₂ gainsOnlyCaches pr pr := by
  induction pr with
  | nil => exact List.Forall₂.nil
  | cons p rest ih => exact List.Forall₂.cons (gainsOnlyCaches_refl p) ih

theorem forall₂_caches_trans {a b c : List JsObj}
    (h1 : List.Forall₂ gainsOnlyCaches a b)
    (h2 : List.Forall₂ gainsOnlyCaches b c) :
    List.Forall₂ gainsOnlyCaches a c := by
  induction h1 generalizing c with
  | nil => cases h2; exact List.Forall₂.nil
  | cons hab h1' ih =>
    cases h2 with
    | cons hbc h2' => exact List.Forall₂.cons (gainsOnlyCaches_trans hab hbc) (ih h2')

theorem modSlot_at_end (o : JsObj) (base : List DProp) (x : DProp)
    (f : DProp → DProp) (h : o.props = base ++ [x]) :
    (modSlot o base.length f).props = base ++ [f x] := by
  unfold modSlot setSlot
  rw [h]
  simp only [List.getElem?_concat_length]
  simp only [set_append_length]

/-! ## Shape lemmas for the allocating operations -/

theorem alloc_prop_append_shape (o : JsObj) (name : Option Wstr) (ty : PropType)
    (flags : Nat) (h : AllocH) :
    (∃ x : DProp, (alloc_prop_append o name ty flags h).2.1.props = o.props ++ [x] ∧
        x.type = ty) ∧
    (∀ (i : Nat) (o2 : JsObj) (h2 : AllocH),
      alloc_prop_append o name ty flags h = (some i, o2, h2) →
      i = o.props.length ∧ ∃ nm, name = some nm ∧
        o2.props = o.props ++ [⟨some nm, ty, flags, .undef⟩]) := by
  unfold alloc_prop_append
  cases name with
  | none =>
    refine ⟨⟨_, rfl, rfl⟩, ?_⟩
    intro i o2 h2 heq
    simp at heq
  | some nm =>
    rcases hh : hpop h with ⟨b, h'⟩
    cases b
    · simp only [hh]
      refine ⟨⟨_, rfl, rfl⟩, ?_⟩
      intro i o2 h2 heq
      simp at heq
    · simp only [hh]
      refine ⟨⟨_, rfl, rfl⟩, ?_⟩
      intro i o2 h2 heq
      simp only [Prod.mk.injEq, Option.some_inj] at heq
      obtain ⟨h1, h2', _⟩ := heq
      exact ⟨h1.symm, nm, rfl, by rw [← h2']⟩

theorem alloc_prop_shape (o : JsObj) (name : Option Wstr) (ty : PropType)
    (flags : Nat) (h : AllocH) :
    (∃ l, (alloc_prop o name ty flags h).2.1.props = o.props ++ l ∧
        ∀ s ∈ l, s.type = ty) ∧
    (∀ (i : Nat) (o2 : JsObj) (h2 : AllocH),
      alloc_prop o name ty flags h = (some i, o2, h2) →
      i = o.props.length ∧ ∃ nm, name = some nm ∧
        o2.props = o.props ++ [⟨some nm, ty, flags, .undef⟩]) := by
  unfold alloc_prop
  by_cases hfull : o.bufSize = o.props.length
  · rw [if_pos hfull]
    rcases hh : hpop h with ⟨b, h'⟩
    cases b
    · simp only [hh]
      refine ⟨⟨[], by simp, by simp⟩, ?_⟩
      intro i o2 h2 heq
      simp at heq
    · simp only [hh]
      have hself := alloc_prop_append_shape { o with bufSize := o.bufSize * 2 }
        name ty flags h'
      refine ⟨?_, ?_⟩
      · obtain ⟨⟨x, hx, hxt⟩, _⟩ := hself
        exact ⟨[x], hx, by simpa using hxt⟩
      · intro i o2 h2 heq
        exact hself.2 i o2 h2 heq
  · rw [if_neg hfull]
    have hself := alloc_prop_append_shape o name ty flags h
    refine ⟨?_, hself.2⟩
    obtain ⟨⟨x, hx, hxt⟩, _⟩ := hself
    exact ⟨[x], hx, by simpa using hxt⟩

theorem alloc_protref_shape (o : JsObj) (name : Option Wstr) (r : Nat)
    (h : AllocH) :
    (∃ l, (alloc_protref o name r h).2.1.props = o.props ++ l ∧
        ∀ s ∈ l, s.type = .protref) ∧
    (∀ (i : Nat) (o2 : JsObj) (h2 : AllocH),
      alloc_protref o name r h = (some i, o2, h2) →
      i = o.props.length ∧ ∃ nm, name = some nm ∧
        o2.props = o.props ++ [⟨some nm, .protref, 0, .ref r⟩]) := by
  unfold alloc_protref
  rcases ha : alloc_prop o name .protref 0 h with ⟨res, oa, h'⟩
  have hshape := alloc_prop_shape o name .protref 0 h
  rw [ha] at hshape
  cases res with
  | none =>
    simp only [ha]
    refine ⟨hshape.1, ?_⟩
    intro i o2 h2 heq
    simp at heq
  | some i =>
    simp only [ha]
    obtain ⟨hi, nm, hnm, hprops⟩ := hshape.2 i oa h' rfl
    have hmod : (modSlot oa i fun t => { t with u := .ref r }).props =
        o.props ++ [⟨some nm, .protref, 0, .ref r⟩] := by
      subst hi
      exact modSlot_at_end oa o.props ⟨some nm, .protref, 0, .undef⟩ _ hprops
    refine ⟨⟨[⟨some nm, .protref, 0, .ref r⟩], hmod, by simp⟩, ?_⟩
    intro i2 o2 h2 heq
    simp only [Prod.mk.injEq, Option.some_inj] at heq
    obtain ⟨hie, hoe, _⟩ := heq
    subst hie
    exact ⟨hi, nm, hnm, by rw [← hoe]; exact hmod⟩

/-! ## Shape lemmas for name resolution -/

theorem find_prop_name_local_hit (o : JsObj) (name : Option Wstr) (h : AllocH)
    (i : Nat) (hscan : scanProps o.props name 0 = some (some i)) :
    find_prop_name o name h = some (.ok, some i, o, h) := by
  unfold find_prop_name
  rw [hscan]

theorem find_prop_name_gains (o : JsObj) (name : Option Wstr) (h : AllocH)
    (hr : Hres) (pi : Option Nat) (o2 : JsObj) (h2 : AllocH)
    (hfind : find_prop_name o name h = some (hr, pi, o2, h2)) :
    gainsOnlyCaches o o2 := by
  unfold find_prop_name at hfind
  cases hscan : scanProps o.props name 0 with
  | none => rw [hscan] at hfind; cases hfind
  | some oi =>
    cases oi with
    | some i =>
      simp only [hscan, Option.some_inj, Prod.mk.injEq] at hfind
      obtain ⟨_, _, ho, _⟩ := hfind
      rw [← ho]
      exact gainsOnlyCaches_refl o
    | none =>
      simp only [hscan] at hfind
      cases hb : find_builtin_propO o name with
      | none => rw [hb] at hfind; cases hfind
      | some ob =>
        cases ob with
        | none =>
          simp only [hb, Option.some_inj, Prod.mk.injEq] at hfind
          obtain ⟨_, _, ho, _⟩ := hfind
          rw [← ho]
          exact gainsOnlyCaches_refl o
        | some b =>
          simp only [hb] at hfind
          rcases ha : alloc_prop o name .builtin b.flags h with ⟨res, oa, ha'⟩
          have hshape := alloc_prop_shape o name .builtin b.flags h
          rw [ha] at hshape
          cases res with
          | none =>
            simp only [ha, Option.some_inj, Prod.mk.injEq] at hfind
            obtain ⟨_, _, ho, _⟩ := hfind
            rw [← ho]
            obtain ⟨l, hl, hlt⟩ := hshape.1
            exact ⟨l, hl, fun s hs => Or.inl (hlt s hs)⟩
          | some i =>
            simp only [ha, Option.some_inj, Prod.mk.injEq] at hfind
            obtain ⟨_, _, ho, _⟩ := hfind
            rw [← ho]
            obtain ⟨hi, nm, hnm, hprops⟩ := hshape.2 i oa ha' rfl
            have hmod : (modSlot oa i fun t => { t with u := .builtin b }).props =
                o.props ++ [⟨some nm, .builtin, b.flags, .builtin b⟩] := by
              subst hi
              exact modSlot_at_end oa o.props ⟨some nm, .builtin, b.flags, .undef⟩ _ hprops
            exact ⟨[⟨some nm, .builtin, b.flags, .builtin b⟩], hmod, by simp⟩

theorem fpnp_alloc_tail_shape (o : JsObj) (protos : List JsObj)
    (name : Option Wstr) (alloc : Bool) (h : AllocH) (hr : Hres)
    (pi : Option Nat) (o2 : JsObj) (protos2 : List JsObj) (h2 : AllocH)
    (heq : fpnp_alloc_tail o protos name alloc h = some (hr, pi, o2, protos2, h2)) :
    gainsOnly o o2 ∧ protos2 = protos ∧ (alloc = false → o2 = o) := by
  unfold fpnp_alloc_tail at heq
  cases alloc with
  | false =>
    simp only [if_neg (by simp : ¬(false = true)), Option.some_inj,
      Prod.mk.injEq] at heq
    obtain ⟨_, _, ho, hpr, _⟩ := heq
    exact ⟨ho ▸ gainsOnly_refl o, hpr.symm, fun _ => ho.symm⟩
  | true =>
    simp only [eq_self_iff_true, if_true] at heq
    rcases ha : alloc_prop o name .variant PROPF_ENUM h with ⟨res, oa, ha'⟩
    have hshape := alloc_prop_shape o name .variant PROPF_ENUM h
    rw [ha] at hshape
    cases res with
    | none =>
      simp only [ha, Option.some_inj, Prod.mk.injEq] at heq
      obtain ⟨_, _, ho, hpr, _⟩ := heq
      refine ⟨?_, hpr.symm, by simp⟩
      obtain ⟨l, hl, _⟩ := hshape.1
      exact ⟨l, by rw [← ho]; exact hl⟩
    | some i =>
      simp only [ha, Option.some_inj, Prod.mk.injEq] at heq
      obtain ⟨_, _, ho, hpr, _⟩ := heq
      refine ⟨?_, hpr.symm, by simp⟩
      obtain ⟨hi, nm, _, hprops⟩ := hshape.2 i oa ha' rfl
      have hmod : (modSlot oa i fun t => { t with u := .var .empty }).props =
          o.props ++ [⟨some nm, .variant, PROPF_ENUM, .var .empty⟩] := by
        subst hi
        exact modSlot_at_end oa o.props ⟨some nm, .variant, PROPF_ENUM, .undef⟩ _ hprops
      exact ⟨[⟨some nm, .variant, PROPF_ENUM, .var .empty⟩], by rw [← ho]; exact hmod⟩

theorem find_prop_name_prot_gains :
    ∀ (protos : List JsObj) (o : JsObj) (name : Option Wstr) (alloc : Bool)
      (h : AllocH) (hr : Hres) (pi : Option Nat) (o2 : JsObj)
      (protos2 : List JsObj) (h2 : AllocH),
      find_prop_name_prot o protos name alloc h = some (hr, pi, o2, protos2, h2) →
      gainsOnly o o2 ∧ List.Forall₂ gainsOnlyCaches protos protos2 ∧
      (alloc = false → gainsOnlyCaches o o2) := by
  intro protos
  induction protos with
  | nil =>
    intro o name alloc h hr pi o2 protos2 h2 hfind
    unfold find_prop_name_prot at hfind
    rcases hf : find_prop_name o name h with _ | ⟨hr1, pi1, o1, h1⟩
    · rw [hf] at hfind; cases hfind
    · simp only [hf] at hfind
      have hg1 := find_prop_name_gains o name h hr1 pi1 o1 h1 hf
      cases hhr : hr1.failed with
      | true =>
        simp only [hhr, eq_self_iff_true, if_true, Option.some_inj, Prod.mk.injEq] at hfind
        obtain ⟨_, _, ho, hpr, _⟩ := hfind
        rw [← ho, ← hpr]
        exact ⟨gainsOnly_of_caches hg1, List.Forall₂.nil, fun _ => hg1⟩
      | false =>
        simp only [hhr, if_neg (by simp : ¬(false = true))] at hfind
        cases pi1 with
        | some i =>
          simp only [Option.some_inj, Prod.mk.injEq] at hfind
          obtain ⟨_, _, ho, hpr, _⟩ := hfind
          rw [← ho, ← hpr]
          exact ⟨gainsOnly_of_caches hg1, List.Forall₂.nil, fun _ => hg1⟩
        | none =>
          obtain ⟨hga, hpr, hid⟩ := fpnp_alloc_tail_shape o1 [] name alloc h1
            hr pi o2 protos2 h2 hfind
          rw [hpr]
          exact ⟨gainsOnly_trans (gainsOnly_of_caches hg1) hga, List.Forall₂.nil,
            fun hfa => (hid hfa) ▸ hg1⟩
  | cons p rest ih =>
    intro o name alloc h hr pi o2 protos2 h2 hfind
    unfold find_prop_name_prot at hfind
    rcases hf : find_prop_name o name h with _ | ⟨hr1, pi1, o1, h1⟩
    · rw [hf] at hfind; cases hfind
    · simp only [hf] at hfind
      have hg1 := find_prop_name_gains o name h hr1 pi1 o1 h1 hf
      cases hhr : hr1.failed with
      | true =>
        simp only [hhr, eq_self_iff_true, if_true, Option.some_inj, Prod.mk.injEq] at hfind
        obtain ⟨_, _, ho, hpr, _⟩ := hfind
        rw [← ho, ← hpr]
        exact ⟨gainsOnly_of_caches hg1, forall₂_caches_refl _, fun _ => hg1⟩
      | false =>
        simp only [hhr, if_neg (by simp : ¬(false = true))] at hfind
        cases pi1 with
        | some i =>
          simp only [Option.some_inj, Prod.mk.injEq] at hfind
          obtain ⟨_, _, ho, hpr, _⟩ := hfind
          rw [← ho, ← hpr]
          exact ⟨gainsOnly_of_caches hg1, forall₂_caches_refl _, fun _ => hg1⟩
        | none =>
          simp only at hfind
          rcases hrec : find_prop_name_prot p rest name false h1 with
            _ | ⟨hr2, pj, p1, rest1, h2'⟩
          · rw [hrec] at hfind; cases hfind
          · simp only [hrec] at hfind
            obtain ⟨_, hgrest, hcp⟩ := ih p name false h1 hr2 pj p1 rest1 h2' hrec
            have hcp1 : gainsOnlyCaches p p1 := hcp rfl
            cases hhr2 : hr2.failed with
            | true =>
              simp only [hhr2, eq_self_iff_true, if_true, Option.some_inj, Prod.mk.injEq] at hfind
              obtain ⟨_, _, ho, hpr, _⟩ := hfind
              rw [← ho, ← hpr]
              exact ⟨gainsOnly_of_caches hg1,
                List.Forall₂.cons hcp1 hgrest, fun _ => hg1⟩
            | false =>
              simp only [hhr2, if_neg (by simp : ¬(false = true))] at hfind
              cases pj with
              | none =>
                obtain ⟨hga, hpr, hid⟩ := fpnp_alloc_tail_shape o1 (p1 :: rest1)
                  name alloc h2' hr pi o2 protos2 h2 hfind
                rw [hpr]
                exact ⟨gainsOnly_trans (gainsOnly_of_caches hg1) hga,
                  List.Forall₂.cons hcp1 hgrest,
                  fun hfa => (hid hfa) ▸ hg1⟩
              | some j =>
                simp only at hfind
                cases hps : p1.props[j]? with
                | none => rw [hps] at hfind; cases hfind
                | some ps =>
                  simp only [hps] at hfind
                  rcases hal : alloc_protref o1 ps.name j h2' with ⟨res, ob, hb⟩
                  have hshape := alloc_protref_shape o1 ps.name j h2'
                  rw [hal] at hshape
                  cases res with
                  | none =>
                    simp only [hal, Option.some_inj, Prod.mk.injEq] at hfind
                    obtain ⟨_, _, ho, hpr, _⟩ := hfind
                    obtain ⟨l, hl, hlt⟩ := hshape.1
                    have hcache : gainsOnlyCaches o1 ob :=
                      ⟨l, hl, fun s hs => Or.inr (hlt s hs)⟩
                    rw [← ho, ← hpr]
                    exact ⟨gainsOnly_of_caches (gainsOnlyCaches_trans hg1 hcache),
                      List.Forall₂.cons hcp1 hgrest,
                      fun _ => gainsOnlyCaches_trans hg1 hcache⟩
                  | some i =>
                    simp only [hal, Option.some_inj, Prod.mk.injEq] at hfind
                    obtain ⟨_, _, ho, hpr, _⟩ := hfind
                    obtain ⟨l, hl, hlt⟩ := hshape.1
                    have hcache : gainsOnlyCaches o1 ob :=
                      ⟨l, hl, fun s hs => Or.inr (hlt s hs)⟩
                    rw [← ho, ← hpr]
                    exact ⟨gainsOnly_of_caches (gainsOnlyCaches_trans hg1 hcache),
                      List.Forall₂.cons hcp1 hgrest,
                      fun _ => gainsOnlyCaches_trans hg1 hcache⟩

theorem fill_protrefs_scan_gains :
    ∀ (pslots : List DProp) (o : JsObj) (base : Nat) (h : AllocH)
      (hr : Hres) (o2 : JsObj) (h2 : AllocH),
      fill_protrefs_scan o pslots base h = some (hr, o2, h2) →
      gainsOnlyCaches o o2 := by
  intro pslots
  induction pslots with
  | nil =>
    intro o base h hr o2 h2 hfill
    unfold fill_protrefs_scan at hfill
    simp only [Option.some_inj, Prod.mk.injEq] at hfill
    obtain ⟨_, ho, _⟩ := hfill
    rw [← ho]
    exact gainsOnlyCaches_refl o
  | cons s rest ih =>
    intro o base h hr o2 h2 hfill
    unfold fill_protrefs_scan at hfill
    rcases hf : find_prop_name o s.name h with _ | ⟨hr1, pi1, oa, ha⟩
    · rw [hf] at hfill; cases hfill
    · simp only [hf] at hfill
      have hg1 := find_prop_name_gains o s.name h hr1 pi1 oa ha hf
      cases hhr : hr1.failed with
      | true =>
        simp only [hhr, eq_self_iff_true, if_true, Option.some_inj,
          Prod.mk.injEq] at hfill
        obtain ⟨_, ho, _⟩ := hfill
        rw [← ho]
        exact hg1
      | false =>
        simp only [hhr, if_neg (by simp : ¬(false = true))] at hfill
        cases pi1 with
        | some i =>
          exact gainsOnlyCaches_trans hg1 (ih oa (base + 1) ha hr o2 h2 hfill)
        | none =>
          simp only at hfill
          rcases hal : alloc_protref oa s.name base ha with ⟨res, ob, hb⟩
          have hshape := alloc_protref_shape oa s.name base ha
          rw [hal] at hshape
          obtain ⟨l, hl, hlt⟩ := hshape.1
          have hcache : gainsOnlyCaches oa ob :=
            ⟨l, hl, fun t ht => Or.inr (hlt t ht)⟩
          cases res with
          | none =>
            simp only [hal, Option.some_inj, Prod.mk.injEq] at hfill
            obtain ⟨_, ho, _⟩ := hfill
            rw [← ho]
            exact gainsOnlyCaches_trans hg1 hcache
          | some i =>
            simp only [hal] at hfill
            exact gainsOnlyCaches_trans hg1
              (gainsOnlyCaches_trans hcache (ih ob (base + 1) hb hr o2 h2 hfill))

theorem fill_protrefs_gains :
    ∀ (protos : List JsObj) (o : JsObj) (h : AllocH)
      (hr : Hres) (o2 : JsObj) (protos2 : List JsObj) (h2 : AllocH),
      fill_protrefs o protos h = some (hr, o2, protos2, h2) →
      gainsOnlyCaches o o2 ∧ List.Forall₂ gainsOnlyCaches protos protos2 := by
  intro protos
  induction protos with
  | nil =>
    intro o h hr o2 protos2 h2 hfill
    unfold fill_protrefs at hfill
    simp only [Option.some_inj, Prod.mk.injEq] at hfill
    obtain ⟨_, ho, hpr, _⟩ := hfill
    rw [← ho, ← hpr]
    exact ⟨gainsOnlyCaches_refl o, List.Forall₂.nil⟩
  | cons p rest ih =>
    intro o h hr o2 protos2 h2 hfill
    unfold fill_protrefs at hfill
    rcases hf : fill_protrefs p rest h with _ | ⟨hrp, p1, rest1, h1⟩
    · rw [hf] at hfill; cases hfill
    · simp only [hf] at hfill
      obtain ⟨hgp, hgrest⟩ := ih p h hrp p1 rest1 h1 hf
      rcases hs : fill_protrefs_scan o p1.props 0 h1 with _ | ⟨hrs, o1, h2x⟩
      · rw [hs] at hfill; cases hfill
      · simp only [hs, Option.some_inj, Prod.mk.injEq] at hfill
        obtain ⟨_, ho, hpr, _⟩ := hfill
        rw [← ho, ← hpr]
        exact ⟨fill_protrefs_scan_gains p1.props o 0 h1 hrs o1 h2x hs,
          List.Forall₂.cons hgp hgrest⟩

/-- `get_flags` either leaves the object untouched or tombstones exactly the
queried protoref slot; prototypes in the chain evolve likewise; and on a
non-protoref slot it is pure and returns the slot's own flags. -/
theorem get_flags_shape :
    ∀ (protos : List JsObj) (o : JsObj) (idx : Nat) (f : Nat) (o2 : JsObj)
      (protos2 : List JsObj),
      get_flags o protos idx = some (f, o2, protos2) →
      (o2 = o ∨ (∃ s, o.props[idx]? = some s ∧ s.type = .protref ∧
          o2 = modSlot o idx fun t => { t with type := .deleted })) ∧
      tableEvolves o o2 ∧ chainEvolves protos protos2 ∧
      o2.props.length = o.props.length ∧
      (∀ j, j ≠ idx → o2.props[j]? = o.props[j]?) ∧
      (∀ s, o.props[idx]? = some s → s.type ≠ .protref →
        f = s.flags ∧ o2 = o ∧ protos2 = protos) := by
  intro protos
  induction protos with
  | nil =>
    intro o idx f o2 protos2 hget
    unfold get_flags at hget
    cases hslot : o.props[idx]? with
    | none => rw [hslot] at hget; cases hget
    | some s =>
      simp only [hslot] at hget
      by_cases hty : s.type = .protref
      · rw [if_pos hty] at hget
        cases hu : s.u with
        | ref r => rw [hu] at hget; cases hget
        | var v => rw [hu] at hget; cases hget
        | builtin b => rw [hu] at hget; cases hget
        | undef => rw [hu] at hget; cases hget
      · rw [if_neg hty] at hget
        simp only [Option.some_inj, Prod.mk.injEq] at hget
        obtain ⟨hfe, ho, hpr⟩ := hget
        rw [← ho, ← hpr]
        refine ⟨Or.inl rfl, tableEvolves_refl o, chainEvolves_refl [], rfl,
          fun j _ => rfl, ?_⟩
        intro t hts _
        cases hts
        exact ⟨hfe.symm, rfl, rfl⟩
  | cons p rest ih =>
    intro o idx f o2 protos2 hget
    unfold get_flags at hget
    cases hslot : o.props[idx]? with
    | none => rw [hslot] at hget; cases hget
    | some s =>
      simp only [hslot] at hget
      by_cases hty : s.type = .protref
      · rw [if_pos hty] at hget
        cases hu : s.u with
        | var v => rw [hu] at hget; cases hget
        | builtin b => rw [hu] at hget; cases hget
        | undef => rw [hu] at hget; cases hget
        | ref r =>
          simp only [hu] at hget
          cases hpp : get_prop p (r : Int) with
          | none =>
            simp only [hpp, Option.some_inj, Prod.mk.injEq] at hget
            obtain ⟨hfe, ho, hpr⟩ := hget
            have hlen : idx < o.props.length := by
              rw [List.getElem?_eq_some] at hslot
              exact hslot.1
            refine ⟨Or.inr ⟨s, rfl, hty, ho.symm⟩, ?_, ?_, ?_, ?_, ?_⟩
            · rw [← ho]
              refine ⟨by simp [modSlot, hslot, setSlot], fun i hi => ?_⟩
              unfold slotEvolvesAt
              by_cases hij : i = idx
              · subst hij
                rw [hslot]
                simp only [modSlot, hslot, setSlot,
                  List.getElem?_set_self (by simpa using hlen)]
                exact ⟨rfl, Or.inr (Or.inl rfl)⟩
              · simp only [modSlot, hslot, setSlot,
                  List.getElem?_set_ne (fun hh => hij hh.symm)]
                cases hoi : o.props[i]? with
                | none => simp
                | some t => simp [slotEvolves_refl]
            · rw [← hpr]
              exact chainEvolves_refl _
            · rw [← ho]
              simp [modSlot, hslot, setSlot]
            · intro j hj
              rw [← ho]
              simp only [modSlot, hslot, setSlot]
              exact List.getElem?_set_ne (fun hh => hj hh.symm)
            · intro t hts hty2
              cases hts
              exact absurd hty hty2
          | some pidx =>
            simp only [hpp] at hget
            rcases hrec : get_flags p rest pidx with _ | ⟨fr, p1, rest1⟩
            · rw [hrec] at hget; cases hget
            · simp only [hrec, Option.some_inj, Prod.mk.injEq] at hget
              obtain ⟨hfe, ho, hpr⟩ := hget
              obtain ⟨_, hpev, hrev, _, _, _⟩ := ih p pidx fr p1 rest1 hrec
              rw [← ho, ← hpr]
              refine ⟨Or.inl rfl, tableEvolves_refl o,
                List.Forall₂.cons hpev hrev, rfl, fun j _ => rfl, ?_⟩
              intro t hts hty2
              cases hts
              exact absurd hty hty2
      · rw [if_neg hty] at hget
        simp only [Option.some_inj, Prod.mk.injEq] at hget
        obtain ⟨hfe, ho, hpr⟩ := hget
        rw [← ho, ← hpr]
        refine ⟨Or.inl rfl, tableEvolves_refl o, chainEvolves_refl _, rfl,
          fun j _ => rfl, ?_⟩
        intro t hts _
        cases hts
        exact ⟨hfe.symm, rfl, rfl⟩

theorem setSlot_getElem_self (o : JsObj) (idx : Nat) (t : DProp)
    (hlen : idx < o.props.length) :
    (setSlot o idx t).props[idx]? = some t := by
  unfold setSlot
  simp only
  exact List.getElem?_set_self (by simpa using hlen)

theorem setSlot_getElem_ne (o : JsObj) (idx j : Nat) (t : DProp)
    (hne : j ≠ idx) : (setSlot o idx t).props[j]? = o.props[j]? := by
  unfold setSlot
  simp only
  exact List.getElem?_set_ne (fun hh => hne hh.symm)

theorem tableEvolves_setSlot (o : JsObj) (idx : Nat) (s t : DProp)
    (hslot : o.props[idx]? = some s) (hev : slotEvolves s t) :
    tableEvolves o (setSlot o idx t) := by
  have hlen : idx < o.props.length := by
    rw [List.getElem?_eq_some] at hslot
    exact hslot.1
  refine ⟨by simp [setSlot], fun i hi => ?_⟩
  unfold slotEvolvesAt
  by_cases hij : i = idx
  · subst hij
    rw [hslot, setSlot_getElem_self o i t hlen]
    exact hev
  · rw [setSlot_getElem_ne o idx i t hij]
    cases h : o.props[i]? with
    | none => simp
    | some u => simp [slotEvolves_refl]

/-- The full effect of `prop_put`: only the targeted slot changes; kind
transitions are limited to `Builtin/ProtRef → Value`; a `Value` slot keeps
name, kind and flags; shadowing installs the supplied value as an own
enumerable `Value` slot in place; a non-method builtin delegates without any
mutation. -/
theorem prop_put_shape (o : JsObj) (idx : Nat) (dp : Dispparams) (hr : Hres)
    (o2 : JsObj) (hput : prop_put o idx dp = some (hr, o2)) :
    tableEvolves o o2 ∧ o2.props.length = o.props.length ∧
    (∀ j, j ≠ idx → o2.props[j]? = o.props[j]?) ∧
    (∀ s, o.props[idx]? = some s → s.type = .variant →
      ∀ s2, o2.props[idx]? = some s2 →
        s2.name = s.name ∧ s2.type = .variant ∧ s2.flags = s.flags) ∧
    (∀ s, o.props[idx]? = some s →
      (s.type = .protref ∨ (s.type = .builtin ∧ s.flags &&& PROPF_METHOD ≠ 0)) →
      ∀ i v, findPutIdx dp.namedArgs = some i → dp.args[i]? = some v →
        hr = .ok ∧ o2 = setSlot o idx ⟨s.name, .variant, PROPF_ENUM, .var v⟩) ∧
    (∀ s, o.props[idx]? = some s → s.type = .builtin →
      s.flags &&& PROPF_METHOD = 0 → hr = .delegated ∧ o2 = o) := by
  unfold prop_put at hput
  cases hslot : o.props[idx]? with
  | none => rw [hslot] at hput; cases hput
  | some s =>
    have hlen : idx < o.props.length := by
      rw [List.getElem?_eq_some] at hslot
      exact hslot.1
    simp only [hslot] at hput
    by_cases hbm : s.type = .builtin ∧ s.flags &&& PROPF_METHOD = 0
    · rw [if_pos hbm] at hput
      simp only [Option.some_inj, Prod.mk.injEq] at hput
      obtain ⟨hhr, ho⟩ := hput
      rw [← ho]
      refine ⟨tableEvolves_refl o, rfl, fun j _ => rfl, ?_, ?_, ?_⟩
      · intro t hts htv s2 hs2
        cases hts
        rw [hbm.1] at htv
        cases htv
      · intro t hts hdisj i v _ _
        cases hts
        rcases hdisj with hdp | ⟨_, hdm⟩
        · rw [hbm.1] at hdp; cases hdp
        · exact absurd hbm.2 hdm
      · intro t hts _ _
        cases hts
        exact ⟨hhr.symm, rfl⟩
    · rw [if_neg hbm] at hput
      by_cases hdel : s.type = .deleted
      · rw [if_pos hdel] at hput
        simp only [Option.some_inj, Prod.mk.injEq] at hput
        obtain ⟨hhr, ho⟩ := hput
        rw [← ho]
        refine ⟨tableEvolves_refl o, rfl, fun j _ => rfl, ?_, ?_, ?_⟩
        · intro t hts htv s2 hs2
          cases hts
          rw [hdel] at htv
          cases htv
        · intro t hts hdisj _ _ _ _
          cases hts
          rcases hdisj with hdp | ⟨hdb, _⟩
          · rw [hdel] at hdp; cases hdp
          · rw [hdel] at hdb; cases hdb
        · intro t hts htb _
          cases hts
          rw [hdel] at htb
          cases htb
      · rw [if_neg hdel] at hput
        have hstep : kindStep s.type
            (DProp.type (if s.type = PropType.variant
              then { s with u := PropU.var Variant.empty }
              else { s with type := PropType.variant
                            flags := PROPF_ENUM
                            u := PropU.var Variant.empty })) := by
          rw [apply_ite DProp.type]
          by_cases hv : s.type = PropType.variant
          · rw [if_pos hv]
            exact Or.inl rfl
          · rw [if_neg hv]
            rcases hty : s.type with _ | _ | _ | _
            · exact absurd hty hv
            · exact Or.inr (Or.inr ⟨rfl, Or.inl rfl⟩)
            · exact Or.inr (Or.inr ⟨rfl, Or.inr rfl⟩)
            · exact absurd hty hdel
        have hname : (DProp.name (if s.type = PropType.variant
            then { s with u := PropU.var Variant.empty }
            else { s with type := PropType.variant
                          flags := PROPF_ENUM
                          u := PropU.var Variant.empty })) = s.name := by
          rw [apply_ite DProp.name]
          simp
        cases hnov : findPutIdx dp.namedArgs with
        | none =>
          simp only [hnov, Option.some_inj, Prod.mk.injEq] at hput
          obtain ⟨hhr, ho⟩ := hput
          rw [← ho]
          refine ⟨tableEvolves_setSlot o idx s _ hslot ⟨hname, hstep⟩, by simp [setSlot],
            fun j hj => setSlot_getElem_ne o idx j _ hj, ?_, ?_, ?_⟩
          · intro t hts htv s2 hs2
            cases hts
            rw [setSlot_getElem_self o idx _ hlen] at hs2
            cases hs2
            rw [if_pos htv]
            exact ⟨rfl, htv, rfl⟩
          · intro t hts _ i v hi _
            cases hts
            cases hi
          · intro t hts htb hbm2
            cases hts
            exact absurd ⟨htb, hbm2⟩ hbm
        | some i =>
          simp only [hnov] at hput
          cases hargs : dp.args[i]? with
          | none => rw [hargs] at hput; cases hput
          | some v =>
            simp only [hargs, Option.some_inj, Prod.mk.injEq] at hput
            obtain ⟨hhr, ho⟩ := hput
            have hcollapse : o2 = setSlot o idx
                ({ (if s.type = .variant then { s with u := PropU.var .empty }
                    else { s with type := .variant
                                  flags := PROPF_ENUM
                                  u := PropU.var .empty }) with u := PropU.var v }) := by
              rw [← ho]
              unfold setSlot
              simp [List.set_set]
            refine ⟨?_, ?_, ?_, ?_, ?_, ?_⟩
            · rw [hcollapse]
              exact tableEvolves_setSlot o idx s _ hslot ⟨hname, hstep⟩
            · rw [hcollapse]; simp [setSlot]
            · intro j hj
              rw [hcollapse]
              exact setSlot_getElem_ne o idx j _ hj
            · intro t hts htv s2 hs2
              cases hts
              rw [hcollapse, setSlot_getElem_self o idx _ hlen] at hs2
              cases hs2
              rw [if_pos htv]
              exact ⟨rfl, htv, rfl⟩
            · intro t hts hdisj i2 v2 hi2 hv2
              cases hts
              cases hi2
              rw [hargs] at hv2
              cases hv2
              have hnv : ¬s.type = PropType.variant := by
                rcases hdisj with hdp | ⟨hdb, _⟩
                · rw [hdp]; simp
                · rw [hdb]; simp
              refine ⟨hhr.symm, ?_⟩
              rw [hcollapse, if_neg hnv]
            · intro t hts htb hbm2
              cases hts
              exact absurd ⟨htb, hbm2⟩ hbm

theorem next_scan_evolves :
    ∀ (fuel : Nat) (o : JsObj) (protos : List JsObj) (i : Nat) (hr : Hres)
      (pid : Int) (o2 : JsObj) (protos2 : List JsObj),
      next_scan fuel o protos i = some (hr, pid, o2, protos2) →
      tableEvolves o o2 ∧ chainEvolves protos protos2 := by
  intro fuel
  induction fuel with
  | zero =>
    intro o protos i hr pid o2 protos2 hscan
    simp [next_scan] at hscan
  | succ n ih =>
    intro o protos i hr pid o2 protos2 hscan
    unfold next_scan at hscan
    cases hslot : o.props[i]? with
    | none =>
      simp only [hslot, Option.some_inj, Prod.mk.injEq] at hscan
      obtain ⟨_, _, ho, hpr⟩ := hscan
      rw [← ho, ← hpr]
      exact ⟨tableEvolves_refl o, chainEvolves_refl protos⟩
    | some s =>
      simp only [hslot] at hscan
      by_cases hn : s.name ≠ none
      · rw [if_pos hn] at hscan
        rcases hgf : get_flags o protos i with _ | ⟨f, oa, pra⟩
        · rw [hgf] at hscan; cases hscan
        · simp only [hgf] at hscan
          obtain ⟨_, hev, hchain, _, _, _⟩ := get_flags_shape protos o i f oa pra hgf
          by_cases hf : f &&& PROPF_ENUM ≠ 0
          · rw [if_pos hf] at hscan
            simp only [Option.some_inj, Prod.mk.injEq] at hscan
            obtain ⟨_, _, ho, hpr⟩ := hscan
            rw [← ho, ← hpr]
            exact ⟨hev, hchain⟩
          · rw [if_neg hf] at hscan
            obtain ⟨hev2, hchain2⟩ := ih oa pra (i + 1) hr pid o2 protos2 hscan
            exact ⟨tableEvolves_trans hev hev2, chainEvolves_trans hchain hchain2⟩
      · rw [if_neg hn] at hscan
        exact ih o protos (i + 1) hr pid o2 protos2 hscan

theorem getNextFrom_evolves (o : JsObj) (protos : List JsObj) (id : Int)
    (h : AllocH) (hr : Hres) (pid : Option Int) (o2 : JsObj)
    (protos2 : List JsObj) (h2 : AllocH)
    (hnext : getNextFrom o protos id h = some (hr, pid, o2, protos2, h2)) :
    tableEvolves o o2 ∧ chainEvolves protos protos2 := by
  unfold getNextFrom at hnext
  cases hgp : get_prop o (id + 1) with
  | none =>
    simp only [hgp, Option.some_inj, Prod.mk.injEq] at hnext
    obtain ⟨_, _, ho, hpr, _⟩ := hnext
    rw [← ho, ← hpr]
    exact ⟨tableEvolves_refl o, chainEvolves_refl protos⟩
  | some idx =>
    simp only [hgp] at hnext
    rcases hns : next_scan (o.props.length - idx + 1) o protos idx with
      _ | ⟨hrs, pids, oa, pra⟩
    · rw [hns] at hnext; cases hnext
    · simp only [hns, Option.some_inj, Prod.mk.injEq] at hnext
      obtain ⟨_, _, ho, hpr, _⟩ := hnext
      rw [← ho, ← hpr]
      exact next_scan_evolves _ o protos idx hrs pids oa pra hns

theorem getNextDispID_evolves (o : JsObj) (protos : List JsObj) (id : Int)
    (h : AllocH) (hr : Hres) (pid : Option Int) (o2 : JsObj)
    (protos2 : List JsObj) (h2 : AllocH)
    (hnext : DispatchEx_GetNextDispID o protos id h =
      some (hr, pid, o2, protos2, h2)) :
    tableEvolves o o2 ∧ chainEvolves protos protos2 := by
  unfold DispatchEx_GetNextDispID at hnext
  by_cases hid : id = DISPID_STARTENUM
  · rw [if_pos hid] at hnext
    rcases hfp : fill_protrefs o protos h with _ | ⟨hrf, oa, pra, ha⟩
    · rw [hfp] at hnext; cases hnext
    · simp only [hfp] at hnext
      obtain ⟨hgo, hgpr⟩ := fill_protrefs_gains protos o h hrf oa pra ha hfp
      have hev1 : tableEvolves o oa := tableEvolves_of_gainsOnly (gainsOnly_of_caches hgo)
      have hch1 : chainEvolves protos pra := chainEvolves_of_caches hgpr
      cases hhrf : hrf.failed with
      | true =>
        simp only [hhrf, eq_self_iff_true, if_true, Option.some_inj,
          Prod.mk.injEq] at hnext
        obtain ⟨_, _, ho, hpr, _⟩ := hnext
        rw [← ho, ← hpr]
        exact ⟨hev1, hch1⟩
      | false =>
        simp only [hhrf, if_neg (by simp : ¬(false = true))] at hnext
        obtain ⟨hev2, hch2⟩ := getNextFrom_evolves oa pra id ha hr pid o2
          protos2 h2 hnext
        exact ⟨tableEvolves_trans hev1 hev2, chainEvolves_trans hch1 hch2⟩
  · rw [if_neg hid] at hnext
    exact getNextFrom_evolves o protos id h hr pid o2 protos2 h2 hnext

theorem protSlotInert_gainsOnly {o o2 : JsObj} (hin : protSlotInert o)
    (hg : gainsOnly o o2) : protSlotInert o2 := by
  obtain ⟨l, hl⟩ := hg
  obtain ⟨hlen, hslot⟩ := hin
  refine ⟨by rw [hl]; simp; omega, ?_⟩
  intro s hs
  rw [hl, List.getElem?_append_left (by omega)] at hs
  exact hslot s hs

theorem next_scan_ne_one :
    ∀ (fuel : Nat) (o : JsObj) (protos : List JsObj) (i : Nat) (hr : Hres)
      (pid : Int) (o2 : JsObj) (protos2 : List JsObj),
      protSlotInert o →
      next_scan fuel o protos i = some (hr, pid, o2, protos2) → pid ≠ 1 := by
  intro fuel
  induction fuel with
  | zero =>
    intro o protos i hr pid o2 protos2 _ hscan
    simp [next_scan] at hscan
  | succ n ih =>
    intro o protos i hr pid o2 protos2 hin hscan
    unfold next_scan at hscan
    cases hslot : o.props[i]? with
    | none =>
      simp only [hslot, Option.some_inj, Prod.mk.injEq] at hscan
      obtain ⟨_, hpid, _, _⟩ := hscan
      rw [← hpid]
      decide
    | some s =>
      simp only [hslot] at hscan
      by_cases hn : s.name ≠ none
      · rw [if_pos hn] at hscan
        rcases hgf : get_flags o protos i with _ | ⟨f, oa, pra⟩
        · rw [hgf] at hscan; cases hscan
        · simp only [hgf] at hscan
          obtain ⟨_, _, _, hlen, hother, hpure⟩ :=
            get_flags_shape protos o i f oa pra hgf
          by_cases hf : f &&& PROPF_ENUM ≠ 0
          · rw [if_pos hf] at hscan
            simp only [Option.some_inj, Prod.mk.injEq] at hscan
            obtain ⟨_, hpid, _, _⟩ := hscan
            rw [← hpid]
            intro hcast
            have hi1 : i = 1 := by exact_mod_cast hcast
            subst hi1
            obtain ⟨hflags, hnp⟩ := hin.2 s hslot
            obtain ⟨hfe, _, _⟩ := hpure s hslot hnp
            rw [hfe] at hf
            exact hf hflags
          · rw [if_neg hf] at hscan
            have hin2 : protSlotInert oa := by
              by_cases hi1 : i = 1
              · subst hi1
                obtain ⟨_, hnp⟩ := hin.2 s hslot
                obtain ⟨_, hoe, _⟩ := hpure s hslot hnp
                rw [hoe]
                exact hin
              · refine ⟨by rw [hlen]; exact hin.1, ?_⟩
                intro t ht
                rw [hother 1 (fun hh => hi1 hh.symm)] at ht
                exact hin.2 t ht
            exact ih oa pra (i + 1) hr pid o2 protos2 hin2 hscan
      · rw [if_neg hn] at hscan
        exact ih o protos (i + 1) hr pid o2 protos2 hin hscan

/-- C9 (amended): across the dispatch operations — name resolution with its
builtin materialization and protoref caching, `prop_put`, effective-flags
queries, protoref prefilling, and enumeration — no slot is ever removed from
the array, identifiers stay array indices, a slot's name is never reassigned
to an unrelated property, and the only kind transitions are
`{Value, Builtin, ProtRef} → Deleted` and the put-time
`Builtin/ProtRef → Value` (all captured by `tableEvolves`/`chainEvolves`).
`jsdisp_set_prot_prop`, run at initialization whenever a prototype is
supplied, is the exception the original claim misses: it converts the
reserved slot 1 from `Deleted` to `Value`, so `Deleted` is terminal only
outside that initialization step (see the counterexample). -/
theorem slot_transitions_limited :
    (∀ (o : JsObj) (name : Option Wstr) (h : AllocH) (hr : Hres)
       (pi : Option Nat) (o2 : JsObj) (h2 : AllocH),
       find_prop_name o name h = some (hr, pi, o2, h2) → tableEvolves o o2) ∧
    (∀ (o : JsObj) (protos : List JsObj) (name : Option Wstr) (alloc : Bool)
       (h : AllocH) (hr : Hres) (pi : Option Nat) (o2 : JsObj)
       (protos2 : List JsObj) (h2 : AllocH),
       find_prop_name_prot o protos name alloc h = some (hr, pi, o2, protos2, h2) →
       tableEvolves o o2 ∧ chainEvolves protos protos2) ∧
    (∀ (o : JsObj) (idx : Nat) (dp : Dispparams) (hr : Hres) (o2 : JsObj),
       prop_put o idx dp = some (hr, o2) → tableEvolves o o2) ∧
    (∀ (o : JsObj) (protos : List JsObj) (idx : Nat) (f : Nat) (o2 : JsObj)
       (protos2 : List JsObj),
       get_flags o protos idx = some (f, o2, protos2) →
       tableEvolves o o2 ∧ chainEvolves protos protos2) ∧
    (∀ (o : JsObj) (protos : List JsObj) (h : AllocH) (hr : Hres) (o2 : JsObj)
       (protos2 : List JsObj) (h2 : AllocH),
       fill_protrefs o protos h = some (hr, o2, protos2, h2) →
       tableEvolves o o2 ∧ chainEvolves protos protos2) ∧
    (∀ (o : JsObj) (protos : List JsObj) (id : Int) (h : AllocH) (hr : Hres)
       (pid : Option Int) (o2 : JsObj) (protos2 : List JsObj) (h2 : AllocH),
       DispatchEx_GetNextDispID o protos id h = some (hr, pid, o2, protos2, h2) →
       tableEvolves o o2 ∧ chainEvolves protos protos2) := by
  refine ⟨?_, ?_, ?_, ?_, ?_, ?_⟩
  · intro o name h hr pi o2 h2 hfind
    exact tableEvolves_of_gainsOnly
      (gainsOnly_of_caches (find_prop_name_gains o name h hr pi o2 h2 hfind))
  · intro o protos name alloc h hr pi o2 protos2 h2 hfind
    obtain ⟨hgo, hgpr, _⟩ :=
      find_prop_name_prot_gains protos o name alloc h hr pi o2 protos2 h2 hfind
    exact ⟨tableEvolves_of_gainsOnly hgo, chainEvolves_of_caches hgpr⟩
  · intro o idx dp hr o2 hput
    exact (prop_put_shape o idx dp hr o2 hput).1
  · intro o protos idx f o2 protos2 hget
    obtain ⟨_, hev, hch, _⟩ := get_flags_shape protos o idx f o2 protos2 hget
    exact ⟨hev, hch⟩
  · intro o protos h hr o2 protos2 h2 hfill
    obtain ⟨hgo, hgpr⟩ := fill_protrefs_gains protos o h hr o2 protos2 h2 hfill
    exact ⟨tableEvolves_of_gainsOnly (gainsOnly_of_caches hgo),
      chainEvolves_of_caches hgpr⟩
  · intro o protos id h hr pid o2 protos2 h2 hnext
    exact getNextDispID_evolves o protos id h hr pid o2 protos2 h2 hnext

/-- Witness for `slot_transitions_limited`: the concrete shadowing put of
`"x" = 7` on `sampleChild`. -/
theorem slot_transitions_limited_witness :
    tableEvolves sampleChild
      ⟨[⟨none, .deleted, 0, .undef⟩,
        ⟨some prototypeW, .variant, 0, .var (.dispatch 0)⟩,
        ⟨some nmX, .variant, PROPF_ENUM, .var (.num 7)⟩],
       4, [], false, false, false⟩ :=
  slot_transitions_limited.2.2.1 sampleChild 2
    ⟨[.num 7], [DISPID_PROPERTYPUT]⟩ .ok
    ⟨[⟨none, .deleted, 0, .undef⟩,
      ⟨some prototypeW, .variant, 0, .var (.dispatch 0)⟩,
      ⟨some nmX, .variant, PROPF_ENUM, .var (.num 7)⟩],
     4, [], false, false, false⟩ (by decide)

/-- C10: the reserved prototype slot (identifier 1) is never enumerable:
`init_dispex` initializes it with empty flags (and the table with its two
reserved slots); `jsdisp_set_prot_prop` converts it to a `Value` slot
holding the prototype reference with flags still empty; a put through its
`Value` branch leaves the flags unchanged; and enumeration never yields
identifier 1 from any object whose slot 1 is flag-empty and non-protoref —
which the other three parts show all reachable objects are. -/
theorem prototype_slot_never_enumerated :
    (∀ (binfo : BuiltinInfo) (pt : Option Nat) (h : AllocH) (hr : Hres)
       (o2 : JsObj) (h2 : AllocH),
       init_dispex binfo pt h = (hr, some o2, h2) →
       protSlotInert o2 ∧ ∀ s, o2.props[1]? = some s → s.flags = 0) ∧
    (∀ (o : JsObj) (tok : Nat) (o2 : JsObj),
       jsdisp_set_prot_prop o tok = some (.ok, o2) →
       ∀ s, o2.props[1]? = some s →
         s.flags = 0 ∧ s.type = .variant ∧ s.u = .var (.dispatch tok)) ∧
    (∀ (o : JsObj) (idx : Nat) (dp : Dispparams) (hr : Hres) (o2 : JsObj)
       (s : DProp), o.props[idx]? = some s → s.type = .variant →
       prop_put o idx dp = some (hr, o2) →
       ∀ s2, o2.props[idx]? = some s2 → s2.flags = s.flags) ∧
    (∀ (o : JsObj) (protos : List JsObj) (id : Int) (h : AllocH) (hr : Hres)
       (pid : Option Int) (o2 : JsObj) (protos2 : List JsObj) (h2 : AllocH),
       protSlotInert o →
       DispatchEx_GetNextDispID o protos id h = some (hr, pid, o2, protos2, h2) →
       pid ≠ some 1) := by
  refine ⟨?_, ?_, ?_, ?_⟩
  · intro binfo pt h hr o2 h2 hinit
    unfold init_dispex at hinit
    rcases hp1 : hpop h with ⟨b1, h1⟩
    simp only [hp1] at hinit
    cases b1 with
    | false => simp at hinit
    | true =>
      simp only [show ¬((¬(true = true)) = True) from by simp,
        if_neg (show ¬¬(true = true) from by simp)] at hinit
      rcases hp2 : hpop h1 with ⟨b2, h2x⟩
      simp only [hp2] at hinit
      cases hv : binfo.valueProp with
      | none =>
        simp only [hv] at hinit
        cases b2 with
        | false =>
          cases pt with
          | none =>
            obtain ⟨_, ho, _⟩ := hinit
            exact ⟨⟨by simp, fun s hs => by cases hs; exact ⟨by simp, by simp⟩⟩,
              fun s hs => by cases hs; simp⟩
          | some tok =>
            simp [jsdisp_set_prot_prop, Hres.failed] at hinit
        | true =>
          cases pt with
          | none =>
            obtain ⟨_, ho, _⟩ := hinit
            exact ⟨⟨by simp, fun s hs => by cases hs; exact ⟨by simp, by simp⟩⟩,
              fun s hs => by cases hs; simp⟩
          | some tok =>
            simp only [jsdisp_set_prot_prop, Hres.failed, setSlot] at hinit
            obtain ⟨_, ho, _⟩ := hinit
            exact ⟨⟨by simp, fun s hs => by cases hs; exact ⟨by simp, by simp⟩⟩,
              fun s hs => by cases hs; simp⟩
      | some b =>
        simp only [hv] at hinit
        cases b2 with
        | false =>
          cases pt with
          | none =>
            obtain ⟨_, ho, _⟩ := hinit
            exact ⟨⟨by simp, fun s hs => by cases hs; exact ⟨by simp, by simp⟩⟩,
              fun s hs => by cases hs; simp⟩
          | some tok =>
            simp [jsdisp_set_prot_prop, Hres.failed] at hinit
        | true =>
          cases pt with
          | none =>
            obtain ⟨_, ho, _⟩ := hinit
            exact ⟨⟨by simp, fun s hs => by cases hs; exact ⟨by simp, by simp⟩⟩,
              fun s hs => by cases hs; simp⟩
          | some tok =>
            simp only [jsdisp_set_prot_prop, Hres.failed, setSlot] at hinit
            obtain ⟨_, ho, _⟩ := hinit
            exact ⟨⟨by simp, fun s hs => by cases hs; exact ⟨by simp, by simp⟩⟩,
              fun s hs => by cases hs; simp⟩
  · intro o tok o2 hset
    unfold jsdisp_set_prot_prop at hset
    cases hslot : o.props[1]? with
    | none => rw [hslot] at hset; cases hset
    | some s =>
      simp only [hslot] at hset
      by_cases hn : s.name = none
      · rw [if_pos hn] at hset
        simp at hset
      · rw [if_neg hn] at hset
        simp only [Option.some_inj, Prod.mk.injEq] at hset
        obtain ⟨_, ho⟩ := hset
        have hlen : 1 < o.props.length := by
          rw [List.getElem?_eq_some] at hslot
          exact hslot.1
        intro s2 hs2
        rw [← ho, setSlot_getElem_self o 1 _ hlen] at hs2
        cases hs2
        exact ⟨rfl, rfl, rfl⟩
  · intro o idx dp hr o2 s hslot hty hput s2 hs2
    exact ((prop_put_shape o idx dp hr o2 hput).2.2.2.1 s hslot hty s2 hs2).2.2
  · intro o protos id h hr pid o2 protos2 h2 hin hnext
    unfold DispatchEx_GetNextDispID at hnext
    have hfrom : ∀ (oa : JsObj) (pra : List JsObj) (ha : AllocH),
        protSlotInert oa →
        getNextFrom oa pra id ha = some (hr, pid, o2, protos2, h2) →
        pid ≠ some 1 := by
      intro oa pra ha hin2 hfromeq
      unfold getNextFrom at hfromeq
      cases hgp : get_prop oa (id + 1) with
      | none =>
        simp only [hgp, Option.some_inj, Prod.mk.injEq] at hfromeq
        obtain ⟨_, hpid, _⟩ := hfromeq
        rw [← hpid]
        decide
      | some idx =>
        simp only [hgp] at hfromeq
        rcases hns : next_scan (oa.props.length - idx + 1) oa pra idx with
          _ | ⟨hrs, pids, ob, prb⟩
        · rw [hns] at hfromeq; cases hfromeq
        · simp only [hns, Option.some_inj, Prod.mk.injEq] at hfromeq
          obtain ⟨_, hpid, _⟩ := hfromeq
          rw [← hpid]
          intro hsome
          exact next_scan_ne_one _ oa pra idx hrs pids ob prb hin2 hns
            (Option.some_inj.mp hsome)
    by_cases hid : id = DISPID_STARTENUM
    · rw [if_pos hid] at hnext
      rcases hfp : fill_protrefs o protos h with _ | ⟨hrf, oa, pra, ha⟩
      · rw [hfp] at hnext; cases hnext
      · simp only [hfp] at hnext
        have hin2 : protSlotInert oa := protSlotInert_gainsOnly hin
          (gainsOnly_of_caches
            (fill_protrefs_gains protos o h hrf oa pra ha hfp).1)
        cases hhrf : hrf.failed with
        | true =>
          simp only [hhrf, eq_self_iff_true, if_true, Option.some_inj,
            Prod.mk.injEq] at hnext
          obtain ⟨_, hpid, _⟩ := hnext
          rw [← hpid]
          simp
        | false =>
          simp only [hhrf, if_neg (by simp : ¬(false = true))] at hnext
          exact hfrom oa pra ha hin2 hnext
    · rw [if_neg hid] at hnext
      exact hfrom o protos h hin hnext

/-- Witness for `prototype_slot_never_enumerated`: a fresh plain object and
an enumeration step on `sampleWithX`. -/
theorem prototype_slot_never_enumerated_witness :
    protSlotInert sampleBare ∧ (some (-1) : Option Int) ≠ some 1 :=
  ⟨(prototype_slot_never_enumerated.1 sampleInfo none [] .ok sampleBare []
      (by decide)).1,
   prototype_slot_never_enumerated.2.2.2 sampleWithX [] DISPID_STARTENUM []
     .sfalse (some (-1)) sampleWithX [] []
     ⟨by decide, fun s hs => by cases hs; exact ⟨by decide, by decide⟩⟩
     (by decide)⟩

theorem scanProps_sound :
    ∀ (l : List DProp) (name : Option Wstr) (j i : Nat),
      scanProps l name j = some (some i) →
      j ≤ i ∧ ∃ s, l[i - j]? = some s ∧ nameMatches s.name name = some true := by
  intro l
  induction l with
  | nil =>
    intro name j i h
    simp [scanProps] at h
  | cons p rest ih =>
    intro name j i h
    unfold scanProps at h
    cases hm : nameMatches p.name name with
    | none => rw [hm] at h; cases h
    | some b =>
      cases b with
      | true =>
        simp only [hm, Option.some_inj] at h
        cases h
        exact ⟨le_rfl, p, by simp, hm⟩
      | false =>
        simp only [hm] at h
        obtain ⟨hji, s, hs, hmm⟩ := ih name (j + 1) i h
        refine ⟨by omega, s, ?_, hmm⟩
        have hsub : i - j = (i - (j + 1)) + 1 := by omega
        rw [hsub]
        simpa using hs

theorem fpnp_local_hit (o : JsObj) (protos : List JsObj) (name : Option Wstr)
    (alloc : Bool) (h : AllocH) (i : Nat)
    (hscan : scanProps o.props name 0 = some (some i)) :
    find_prop_name_prot o protos name alloc h = some (.ok, some i, o, protos, h) := by
  have hf := find_prop_name_local_hit o name h i hscan
  cases protos with
  | nil =>
    unfold find_prop_name_prot
    simp only [hf]
    simp [Hres.failed]
  | cons p rest =>
    unfold find_prop_name_prot
    simp only [hf]
    simp [Hres.failed]

/-- C8 (amended): resolution precedence and local-only writes.  When O
itself has a slot matching name N, resolution returns exactly the first
matching local slot, mutating neither O nor any prototype; a get on O's own
`Value` slot returns O's stored value whatever the prototype chain holds; a
put mutates only the targeted local slot of O — converting a `ProtRef` or
*method-like* `Builtin` slot in place into an own enumerable `Value` slot
holding the supplied value (a non-method `Builtin` instead delegates to its
descriptor with no mutation at all, the asymmetry the original claim
misses) — so a put through O never changes a prototype's table. -/
theorem resolution_precedence_and_local_shadowing :
    (∀ (o : JsObj) (protos : List JsObj) (name : Option Wstr) (alloc : Bool)
       (h : AllocH) (i : Nat),
       scanProps o.props name 0 = some (some i) →
       find_prop_name_prot o protos name alloc h =
         some (.ok, some i, o, protos, h)) ∧
    (∀ (l : List DProp) (name : Option Wstr) (i : Nat),
       scanProps l name 0 = some (some i) →
       ∃ s, l[i]? = some s ∧ nameMatches s.name name = some true) ∧
    (∀ (o : JsObj) (protos : List JsObj) (i : Nat) (s : DProp) (v : Variant),
       o.props[i]? = some s → s.type = .variant → s.u = .var v →
       prop_get o protos i = some (.ok, some v)) ∧
    (∀ (o : JsObj) (idx : Nat) (dp : Dispparams) (hr : Hres) (o2 : JsObj),
       prop_put o idx dp = some (hr, o2) →
       (∀ j, j ≠ idx → o2.props[j]? = o.props[j]?) ∧
       (∀ s, o.props[idx]? = some s →
         (s.type = .protref ∨ (s.type = .builtin ∧ s.flags &&& PROPF_METHOD ≠ 0)) →
         ∀ i v, findPutIdx dp.namedArgs = some i → dp.args[i]? = some v →
           hr = .ok ∧ o2 = setSlot o idx ⟨s.name, .variant, PROPF_ENUM, .var v⟩) ∧
       (∀ s, o.props[idx]? = some s → s.type = .builtin →
         s.flags &&& PROPF_METHOD = 0 → hr = .delegated ∧ o2 = o)) := by
  refine ⟨?_, ?_, ?_, ?_⟩
  · intro o protos name alloc h i hscan
    exact fpnp_local_hit o protos name alloc h i hscan
  · intro l name i hscan
    obtain ⟨_, s, hs, hm⟩ := scanProps_sound l name 0 i hscan
    rw [Nat.sub_zero] at hs
    exact ⟨s, hs, hm⟩
  · intro o protos i s v hslot hty hu
    cases protos with
    | nil =>
      unfold prop_get
      simp only [hslot, hty, hu]
    | cons p rest =>
      unfold prop_get
      simp only [hslot, hty, hu]
  · intro o idx dp hr o2 hput
    obtain ⟨_, _, hother, _, hshadow, hdeleg⟩ := prop_put_shape o idx dp hr o2 hput
    exact ⟨hother, hshadow, hdeleg⟩

/-- Witness for `resolution_precedence_and_local_shadowing`: `sampleChild`
and its prototype both define `"x"`; the local slot wins, the own value is
returned, and the shadowing put rewrites only the local slot. -/
theorem resolution_precedence_and_local_shadowing_witness :
    find_prop_name_prot sampleChild [sampleProtoX] (some nmX) false [] =
      some (.ok, some 2, sampleChild, [sampleProtoX], []) ∧
    prop_get sampleWithX [sampleProtoX] 2 = some (.ok, some (.num 5)) :=
  ⟨resolution_precedence_and_local_shadowing.1 sampleChild [sampleProtoX]
      (some nmX) false [] 2 (by decide),
   resolution_precedence_and_local_shadowing.2.2.1 sampleWithX [sampleProtoX] 2
      ⟨some nmX, .variant, PROPF_ENUM, .var (.num 5)⟩ (.num 5)
      (by decide) (by decide) (by decide)⟩

/-- C4 (amended): the recursive search of the prototype chain is not
search-only — it may append materialized `Builtin` slots and cached
`ProtoRef` slots to the prototypes' own tables — but it never creates a
fresh `Value` slot there (`alloc=FALSE` is passed down), and never touches
the prototypes' existing slots: every prototype's table after resolution is
its old table plus cache slots only. -/
theorem find_prop_name_prot_no_value_slots_on_prototypes
    (o : JsObj) (protos : List JsObj) (name : Option Wstr) (alloc : Bool)
    (h : AllocH) (hr : Hres) (pi : Option Nat) (o2 : JsObj)
    (protos2 : List JsObj) (h2 : AllocH)
    (hfind : find_prop_name_prot o protos name alloc h =
      some (hr, pi, o2, protos2, h2)) :
    List.Forall₂ gainsOnlyCaches protos protos2 :=
  (find_prop_name_prot_gains protos o name alloc h hr pi o2 protos2 h2 hfind).2.1

/-- Witness for `find_prop_name_prot_no_value_slots_on_prototypes` at the
concrete resolution of `"m"` on `sampleChildBare` over `sampleProtoM`. -/
theorem find_prop_name_prot_no_value_slots_on_prototypes_witness :
    List.Forall₂ gainsOnlyCaches [sampleProtoM]
      [{ sampleProtoM with props := sampleProtoM.props ++
          [⟨some nmM, .builtin, PROPF_METHOD, .builtin ⟨nmM, PROPF_METHOD⟩⟩] }] :=
  find_prop_name_prot_no_value_slots_on_prototypes sampleChildBare [sampleProtoM]
    (some nmM) false [] .ok (some 2)
    { sampleChildBare with props :=
        sampleChildBare.props ++ [⟨some nmM, .protref, 0, .ref 2⟩] }
    [{ sampleProtoM with props := sampleProtoM.props ++
        [⟨some nmM, .builtin, PROPF_METHOD, .builtin ⟨nmM, PROPF_METHOD⟩⟩] }]
    [] (by decide)

/-! ### Lifecycle lemmas (for claim C2) -/

theorem release_go_freed (fuel : Nat) :
    ∀ (hp : RC.RHeap) (q : Sum Nat (List RC.RSlot × Nat)) (j : Nat),
      hp[j]? = some none → (RC.release_go fuel hp q).1[j]? = some none := by
  induction fuel with
  | zero => intro hp q j h; simpa [RC.release_go] using h
  | succ f ih =>
    intro hp q j h
    rcases q with tok | ⟨slots, i⟩
    · cases htok : hp[tok]? with
      | none => simpa [RC.release_go, htok] using h
      | some oo =>
        cases oo with
        | none => simpa [RC.release_go, htok] using h
        | some o =>
          have hjt : tok ≠ j := by
            intro he
            rw [he, h] at htok
            simp at htok
          by_cases hr : (o.ref + (2 ^ 32 - 1)) % 2 ^ 32 = 0
          · obtain ⟨hlt, -⟩ := List.getElem?_eq_some.mp htok
            have hset : (hp.set tok none)[j]? = some none := by
              rw [List.getElem?_set_ne hjt]
              exact h
            have hrec := ih (hp.set tok none) (Sum.inr (o.slots, 0)) j hset
            simp only [RC.release_go, htok, if_pos hr]
            exact hrec
          · simp only [RC.release_go, htok, if_neg hr]
            exact (List.getElem?_set_ne hjt).trans h
    · cases slots with
      | nil => simpa [RC.release_go] using h
      | cons s0 rest =>
        by_cases hv : s0.ty = PropType.variant
        · cases hd : s0.disp with
          | some t =>
            have h1 := ih hp (Sum.inl t) j h
            have h2 := ih (RC.release_go f hp (Sum.inl t)).1
              (Sum.inr (rest, i + 1)) j h1
            simpa [RC.release_go, hv, hd] using h2
          | none =>
            have h2 := ih hp (Sum.inr (rest, i + 1)) j h
            simpa [RC.release_go, hv, hd] using h2
        · have h2 := ih hp (Sum.inr (rest, i + 1)) j h
          simpa [RC.release_go, hv] using h2

theorem release_slots_varCleared (fuel : Nat) :
    ∀ (slots : List RC.RSlot) (hp : RC.RHeap) (i j : Nat) (s : RC.RSlot),
      slots.length ≤ fuel → slots[j]? = some s → s.ty = PropType.variant →
      RC.Effect.varCleared (i + j) ∈
        (RC.release_go fuel hp (Sum.inr (slots, i))).2 := by
  induction fuel with
  | zero =>
    intro slots hp i j s hlen hj hv
    have hnil : slots = [] := List.length_eq_zero.mp (Nat.le_zero.mp hlen)
    subst hnil
    simp at hj
  | succ f ih =>
    intro slots hp i j s hlen hj hv
    cases slots with
    | nil => simp at hj
    | cons s0 rest =>
      have hlen' : rest.length ≤ f := Nat.succ_le_succ_iff.mp (by simpa using hlen)
      cases j with
      | zero =>
        have hs : s0 = s := by simpa using hj
        subst hs
        cases hd : s0.disp with
        | some t => simp [RC.release_go, hv, hd]
        | none => simp [RC.release_go, hv, hd]
      | succ k =>
        have hk : rest[k]? = some s := by simpa using hj
        have harith : i + (k + 1) = (i + 1) + k := by omega
        by_cases hv0 : s0.ty = PropType.variant
        · cases hd : s0.disp with
          | some t =>
            have hmem := ih rest (RC.release_go f hp (Sum.inl t)).1
              (i + 1) k s hlen' hk hv
            rw [harith]
            simp only [RC.release_go, hv0, hd, if_pos, List.mem_append]
            simp only [List.mem_append] at hmem
            exact Or.inr hmem
          | none =>
            have hmem := ih rest hp (i + 1) k s hlen' hk hv
            rw [harith]
            simp only [RC.release_go, hv0, hd, if_pos, List.mem_append]
            exact Or.inr hmem
        · have hmem := ih rest hp (i + 1) k s hlen' hk hv
          rw [harith]
          simp only [RC.release_go, hv0, if_neg, List.mem_append]
          exact Or.inr hmem

theorem release_slots_released (fuel : Nat) :
    ∀ (slots : List RC.RSlot) (hp : RC.RHeap) (i j : Nat) (s : RC.RSlot)
      (t : Nat),
      slots.length ≤ fuel → slots[j]? = some s → s.ty = PropType.variant →
      s.disp = some t →
      RC.Effect.released t ∈
        (RC.release_go fuel hp (Sum.inr (slots, i))).2 := by
  induction fuel with
  | zero =>
    intro slots hp i j s t hlen hj hv hd
    have hnil : slots = [] := List.length_eq_zero.mp (Nat.le_zero.mp hlen)
    subst hnil
    simp at hj
  | succ f ih =>
    intro slots hp i j s t hlen hj hv hd
    cases slots with
    | nil => simp at hj
    | cons s0 rest =>
      have hlen' : rest.length ≤ f := Nat.succ_le_succ_iff.mp (by simpa using hlen)
      cases j with
      | zero =>
        have hs : s0 = s := by simpa using hj
        subst hs
        simp [RC.release_go, hv, hd]
      | succ k =>
        have hk : rest[k]? = some s := by simpa using hj
        by_cases hv0 : s0.ty = PropType.variant
        · cases hd0 : s0.disp with
          | some t0 =>
            have hmem := ih rest (RC.release_go f hp (Sum.inl t0)).1
              (i + 1) k s t hlen' hk hv hd
            simp only [RC.release_go, hv0, hd0, if_pos, List.mem_append]
            simp only [List.mem_append] at hmem
            exact Or.inr hmem
          | none =>
            have hmem := ih rest hp (i + 1) k s t hlen' hk hv hd
            simp only [RC.release_go, hv0, hd0, if_pos, List.mem_append]
            exact Or.inr hmem
        · have hmem := ih rest hp (i + 1) k s t hlen' hk hv hd
          simp only [RC.release_go, hv0, if_neg, List.mem_append]
          exact Or.inr hmem

theorem release_slots_nameFreed (fuel : Nat) :
    ∀ (slots : List RC.RSlot) (hp : RC.RHeap) (i j : Nat),
      slots.length ≤ fuel → j < slots.length →
      RC.Effect.nameFreed (i + j) ∈
        (RC.release_go fuel hp (Sum.inr (slots, i))).2 := by
  induction fuel with
  | zero =>
    intro slots hp i j hlen hj
    omega
  | succ f ih =>
    intro slots hp i j hlen hj
    cases slots with
    | nil => simp at hj
    | cons s0 rest =>
      have hlen' : rest.length ≤ f := Nat.succ_le_succ_iff.mp (by simpa using hlen)
      cases j with
      | zero => simp [RC.release_go]
      | succ k =>
        have hk : k < rest.length := by simpa using hj
        have harith : i + (k + 1) = (i + 1) + k := by omega
        by_cases hv0 : s0.ty = PropType.variant
        · cases hd0 : s0.disp with
          | some t0 =>
            have hmem := ih rest (RC.release_go f hp (Sum.inl t0)).1
              (i + 1) k hlen' hk
            rw [harith]
            simp only [RC.release_go, hv0, hd0, if_pos, List.mem_append]
            simp only [List.mem_append] at hmem
            exact Or.inr hmem
          | none =>
            have hmem := ih rest hp (i + 1) k hlen' hk
            rw [harith]
            simp only [RC.release_go, hv0, hd0, if_pos, List.mem_append]
            exact Or.inr hmem
        · have hmem := ih rest hp (i + 1) k hlen' hk
          rw [harith]
          simp only [RC.release_go, hv0, if_neg, List.mem_append]
          exact Or.inr hmem

/-- **C2**: when an object's reference count reaches zero via release, the
destruction sequence clears every `PROP_VARIANT` slot's payload (releasing
the dispatch object a `VT_DISPATCH` payload references — in particular the
prototype held by the `"prototype"` slot), frees every slot's name string,
frees the backing slot array, releases the script context, ends with the
class destructor exactly when one is registered (the generic `heap_free`
otherwise), and removes the object from the heap; and in the
shared-prototype heap, releasing one child leaves the prototype alive with
one hold remaining while releasing both children removes every object. -/
theorem release_zero_destroys_fully
    (fuel : Nat) (hp : RC.RHeap) (tok : Nat) (o : RC.RObj)
    (htok : hp[tok]? = some (some o)) (href : o.ref = 1)
    (hfuel : o.slots.length ≤ fuel) :
    (∀ (j : Nat) (s : RC.RSlot), o.slots[j]? = some s →
        s.ty = PropType.variant →
        RC.Effect.varCleared j ∈ (RC.DispatchEx_Release (fuel + 1) hp tok).2) ∧
    (∀ (j : Nat) (s : RC.RSlot) (t : Nat), o.slots[j]? = some s →
        s.ty = PropType.variant →
        s.disp = some t →
        RC.Effect.released t ∈ (RC.DispatchEx_Release (fuel + 1) hp tok).2) ∧
    (∀ j, j < o.slots.length →
        RC.Effect.nameFreed j ∈ (RC.DispatchEx_Release (fuel + 1) hp tok).2) ∧
    RC.Effect.arrayFreed ∈ (RC.DispatchEx_Release (fuel + 1) hp tok).2 ∧
    RC.Effect.ctxReleased ∈ (RC.DispatchEx_Release (fuel + 1) hp tok).2 ∧
    (RC.DispatchEx_Release (fuel + 1) hp tok).2.getLast? =
      some (if o.hasDtor then RC.Effect.dtorRun else RC.Effect.genericFreed) ∧
    (RC.DispatchEx_Release (fuel + 1) hp tok).1[tok]? = some none ∧
    (RC.DispatchEx_Release 9 RC.sampleHeapRC 1).1 =
      [some ⟨1, [], false⟩, none, some RC.sampleChildRC2] ∧
    (RC.DispatchEx_Release 9 (RC.DispatchEx_Release 9 RC.sampleHeapRC 1).1 2).1 =
      [none, none, none] ∧
    (RC.DispatchEx_Release 9 RC.sampleHeapRC 2).2.getLast? =
      some RC.Effect.dtorRun ∧
    (RC.DispatchEx_Release 9 RC.sampleHeapRC 1).2.getLast? =
      some RC.Effect.genericFreed := by
  have hr0 : (o.ref + (2 ^ 32 - 1)) % 2 ^ 32 = 0 := by
    rw [href]
    decide
  have hshape : RC.DispatchEx_Release (fuel + 1) hp tok =
      ((RC.release_go fuel (hp.set tok none) (Sum.inr (o.slots, 0))).1,
       (RC.release_go fuel (hp.set tok none) (Sum.inr (o.slots, 0))).2 ++
         [RC.Effect.arrayFreed, RC.Effect.ctxReleased] ++
         (if o.hasDtor then [RC.Effect.dtorRun]
          else [RC.Effect.genericFreed])) := by
    simp only [RC.DispatchEx_Release, RC.release_go, htok, if_pos hr0]
  obtain ⟨hlt, -⟩ := List.getElem?_eq_some.mp htok
  refine ⟨?_, ?_, ?_, ?_, ?_, ?_, ?_, by decide, by decide, by decide, by decide⟩
  · intro j s hj hv
    have hm := release_slots_varCleared fuel o.slots (hp.set tok none) 0 j s
      hfuel hj hv
    rw [hshape]
    simp only [List.mem_append]
    exact Or.inl (Or.inl (by simpa using hm))
  · intro j s t hj hv hd
    have hm := release_slots_released fuel o.slots (hp.set tok none) 0 j s t
      hfuel hj hv hd
    rw [hshape]
    simp only [List.mem_append]
    exact Or.inl (Or.inl hm)
  · intro j hj
    have hm := release_slots_nameFreed fuel o.slots (hp.set tok none) 0 j
      hfuel hj
    rw [hshape]
    simp only [List.mem_append]
    exact Or.inl (Or.inl (by simpa using hm))
  · rw [hshape]
    simp
  · rw [hshape]
    simp
  · rw [hshape]
    cases o.hasDtor <;> simp [List.getLast?_concat]
  · rw [hshape]
    have hset : (hp.set tok none)[tok]? = some none :=
      List.getElem?_set_self (by simpa using hlt)
    exact release_go_freed fuel (hp.set tok none) (Sum.inr (o.slots, 0)) tok hset

/-- Witness for `release_zero_destroys_fully`: releasing child token 1 in the
shared-prototype heap records a release of the prototype (token 0) and leaves
the child's heap entry freed. -/
theorem release_zero_destroys_fully_witness :
    RC.Effect.released 0 ∈ (RC.DispatchEx_Release 3 RC.sampleHeapRC 1).2 ∧
    (RC.DispatchEx_Release 3 RC.sampleHeapRC 1).1[1]? = some none :=
  ⟨(release_zero_destroys_fully 2 RC.sampleHeapRC 1 RC.sampleChildRC1
      (by decide) (by decide) (by decide)).2.1 1 ⟨PropType.variant, some 0⟩ 0
      (by decide) (by decide) (by decide),
   (release_zero_destroys_fully 2 RC.sampleHeapRC 1 RC.sampleChildRC1
      (by decide) (by decide) (by decide)).2.2.2.2.2.2.1⟩

end Dispex
